import Mathlib

/-!
# gitreport: the log-query codec and the commit diff

A shallow embedding of `log_query.go` and `commit_log.go`.

* A Go `string` is a sequence of bytes: `GoString = List (Fin 256)`.
* A Go `(T, error)` result is `Except GoError T`.
* A Go `*time.Time` is `Option Time`; a `Time` carries its Unix second count
  (an `int64`), its nanoseconds and its location.
* The standard-library calls the source makes (`strings.Split`, `strings.Join`,
  `fmt.Sprintf("0x%x")`, `fmt.Sscanf("0x%x")`, `strconv.ParseInt`,
  `base64.URLEncoding.WithPadding(base64.NoPadding)`, `sort.Strings`) are
  modelled after their Go implementation, each next to the function using it.
-/

namespace Gitreport

/-! ## Strings and errors -/

abbrev Byte := Fin 256

abbrev GoString := List Byte

/-- The bytes of a Go string literal: the UTF-8 encoding of its characters. -/
def utf8 (s : String) : GoString :=
  s.toList.flatMap fun c => (String.utf8EncodeChar c).map fun b => Fin.ofNat b.toNat

/-- The errors the modelled functions return. -/
inductive GoError where
  /-- `errors.New("Invalid Log Query")`. -/
  | invalidLogQuery
  /-- `errors.New("Invalid Log Parameter " + param)`. -/
  | invalidLogParameter (param : GoString)
  /-- `errors.New("Invalid Log Parameter value " + param)`. -/
  | invalidLogParameterValue (param : GoString)
  /-- `fmt`: `io.ErrUnexpectedEOF`, the input ends inside the literal text of the
  format. -/
  | unexpectedEOF
  /-- `fmt`: `io.EOF`, the input ends where a verb expects data. -/
  | eof
  /-- `fmt`: "input does not match format". -/
  | inputDoesNotMatchFormat
  /-- `fmt`: "unexpected newline". -/
  | unexpectedNewline
  /-- `fmt`: "expected integer". -/
  | expectedInteger
  /-- `strconv`: "value out of range". -/
  | valueOutOfRange
  /-- `base64.CorruptInputError`. -/
  | corruptInput
  /-- `object.ErrParentNotFound` of go-git: the commit has no parent of that index. -/
  | parentNotFound
  /-- `plumbing.ErrObjectNotFound` of go-git: an object is missing from the storage. -/
  | objectNotFound
  /-- Any other error of the storage or of the decoding of an object. -/
  | storage (message : GoString)
  deriving DecidableEq, Repr

deriving instance DecidableEq for Except

/-! ## Constants of `log_query.go` -/

def version1String : GoString := utf8 "Q1"
def PrefixLength : Nat := 2
def AllPrefix : GoString := utf8 "AL"
def AuthorPrefix : GoString := utf8 "AU"
def RefPrefix : GoString := utf8 "ID"
def FromTimePrefix : GoString := utf8 "FT"
def ToTimePrefix : GoString := utf8 "TT"
/-- The separator `"\n"`, a single byte. -/
def querySeparator : Byte := 10

/-! ## Times -/

inductive Location where
  | UTC
  | Local
  | named (name : GoString)
  deriving DecidableEq, Repr

/-- A `time.Time`: `unix` is what `Unix()` returns (an `int64`), `nsec` the
nanoseconds within the second, `loc` the location. -/
structure Time where
  unix : Int
  nsec : Nat
  loc : Location
  unix_ge : -9223372036854775808 ≤ unix
  unix_lt : unix < 9223372036854775808
  nsec_lt : nsec < 1000000000
  deriving DecidableEq

/-- The method `t.UTC()`: the same instant, location UTC. -/
def Time.UTC (t : Time) : Time := { t with loc := Location.UTC }

/-- The method `t.Unix()`. -/
def Time.Unix (t : Time) : Int := t.unix

/-- The function `time.Unix(sec, 0)`: location `Local`, no nanoseconds. -/
def timeUnix (sec : Int) (h1 : -9223372036854775808 ≤ sec) (h2 : sec < 9223372036854775808) :
    Time :=
  { unix := sec, nsec := 0, loc := Location.Local, unix_ge := h1, unix_lt := h2,
    nsec_lt := by decide }

/-- The table `daysBefore` of package `time`: the days of a common year before each
month. -/
def daysBefore : List Nat := [0, 31, 59, 90, 120, 151, 181, 212, 243, 273, 304, 334, 365]

/-- The leap years of the Gregorian calendar (`isLeap` of package `time`). -/
def isLeap (year : Nat) : Bool := year % 4 = 0 && (year % 100 ≠ 0 || year % 400 = 0)

/-- The seconds from 1970-01-01T00:00:00Z to the given UTC date and time of day, as
`time.Date` computes them: the days before the year, before the month and before the day,
times 86400, plus the seconds of the day, less the seconds from year 1 to 1970. -/
def dateUnixSeconds (year month day hour min sec : Nat) : Int :=
  let y := year - 1
  let d := 365 * y + y / 4 - y / 100 + y / 400 + daysBefore.getD (month - 1) 0 +
    (if isLeap year && decide (3 ≤ month) then 1 else 0) + (day - 1)
  ((d * 86400 + hour * 3600 + min * 60 + sec : Nat) : Int) - 62135596800

/-- The call `time.Date(year, month, day, hour, min, sec, 0, time.UTC)`. -/
def timeDate (year month day hour min sec : Nat)
    (h : dateUnixSeconds year month day hour min sec < 9223372036854775808) : Time :=
  { unix := dateUnixSeconds year month day hour min sec
    nsec := 0
    loc := Location.UTC
    unix_ge := by unfold dateUnixSeconds; dsimp only; omega
    unix_lt := h
    nsec_lt := by decide }

/-- The method `t.Equal(u)`: the two times denote the same instant. -/
def Time.Equal (t u : Time) : Prop := t.unix = u.unix ∧ t.nsec = u.nsec

/-! ## The query -/

structure LogQuery where
  AuthorRegexp : GoString
  All : Bool
  Ref : GoString
  FromTime : Option Time
  ToTime : Option Time
  deriving DecidableEq

/-- The zero value `LogQuery{}`. -/
def LogQuery.zero : LogQuery :=
  { AuthorRegexp := [], All := false, Ref := [], FromTime := none, ToTime := none }

/-! ## `fmt.Sprintf("0x%x", int64)` -/

/-- The digit table `ldigits` of package `fmt`. -/
def ldigits : GoString := utf8 "0123456789abcdefx"

def ldigit (d : Nat) : Byte := ldigits.getD d 0

/-- The base-16 loop of `fmt.fmtInteger`: `for u >= 16 { buf[i] = digits[u&0xF]; u >>= 4 }`
and then `buf[i] = digits[u]`; the digits are written right to left, so they are consed
onto `acc`. `fuel` bounds the number of iterations; `fmtHex` passes enough. -/
def fmtHexLoop : Nat → Nat → GoString → GoString
  | 0, u, acc => ldigit (u % 16) :: acc
  | fuel + 1, u, acc =>
    if 16 ≤ u then fmtHexLoop fuel (u / 16) (ldigit (u % 16) :: acc) else ldigit u :: acc

/-- The hexadecimal digits of `u`. -/
def fmtHex (u : Nat) : GoString := fmtHexLoop u u []

/-- `fmt.Sprintf("0x%x", v)` for `v : int64`: the literal `0x`, a minus sign when `v` is
negative, and the lowercase hexadecimal digits of the magnitude of `v`. -/
def sprintf0xHex (v : Int) : GoString :=
  utf8 "0x" ++ (if v < 0 then utf8 "-" else []) ++ fmtHex v.natAbs

/-- `formatTime` of `log_query.go`. -/
def formatTime (t : Time) : GoString := sprintf0xHex t.UTC.Unix

/-! ## `strings.Join` and `ExportLogQuery` -/

/-- `strings.Join(params, querySeparator)`. -/
def stringsJoin (params : List GoString) : GoString := [querySeparator].intercalate params

/-- `ExportLogQuery` of `log_query.go`; `params` grows by the same appends. -/
def ExportLogQuery (query : LogQuery) : Except GoError GoString :=
  let params : List GoString := []
  let params := params ++ [version1String]
  let params :=
    if query.All then params ++ [AllPrefix]
    else if query.Ref.length > 0 then params ++ [RefPrefix ++ query.Ref]
    else params
  let params :=
    if query.AuthorRegexp.length > 0 then params ++ [AuthorPrefix ++ query.AuthorRegexp]
    else params
  let params :=
    match query.FromTime with
    | some t => params ++ [FromTimePrefix ++ formatTime t]
    | none => params
  let params :=
    match query.ToTime with
    | some t => params ++ [ToTimePrefix ++ formatTime t]
    | none => params
  .ok (stringsJoin params)

/-! ## `fmt.Sscanf(value, "0x%x", &unixTime)` and `parseTime` -/

/-- The ASCII bytes `fmt.isSpace` accepts, the newline apart: tab, vertical tab, form
feed, carriage return and space. -/
def isAsciiSpace (c : Byte) : Bool :=
  c.val = 9 || c.val = 11 || c.val = 12 || c.val = 13 || c.val = 32

/-- The two-byte UTF-8 encodings of the runes `fmt.isSpace` accepts: U+0085 and U+00A0. -/
def isSpace2 (c d : Byte) : Bool :=
  c.val = 0xC2 && (d.val = 0x85 || d.val = 0xA0)

/-- The three-byte UTF-8 encodings of the runes `fmt.isSpace` accepts: U+1680,
U+2000..U+200A, U+2028, U+2029, U+202F, U+205F and U+3000. -/
def isSpace3 (c d e : Byte) : Bool :=
  (c.val = 0xE1 && d.val = 0x9A && e.val = 0x80) ||
  (c.val = 0xE2 && d.val = 0x80 &&
    ((0x80 ≤ e.val && e.val ≤ 0x8A) || e.val = 0xA8 || e.val = 0xA9 || e.val = 0xAF)) ||
  (c.val = 0xE2 && d.val = 0x81 && e.val = 0x9F) ||
  (c.val = 0xE3 && d.val = 0x80 && e.val = 0x80)

/-- The method `(*ss).SkipSpace` for `Sscanf` (`nlIsSpace` is false): space runes are
consumed, a newline is the error "unexpected newline", and the scan stops before the
first rune that is not a space. -/
def skipSpace : GoString → Except GoError GoString
  | [] => .ok []
  | c :: rest =>
    if c.val = 10 then .error GoError.unexpectedNewline
    else if isAsciiSpace c then skipSpace rest
    else
      match rest with
      | [] => .ok [c]
      | d :: rest2 =>
        if isSpace2 c d then skipSpace rest2
        else
          match rest2 with
          | [] => .ok [c, d]
          | e :: rest3 =>
            if isSpace3 c d e then skipSpace rest3 else .ok (c :: d :: e :: rest3)

/-- Membership in `hexadecimalDigits = "0123456789aAbBcCdDeEfF"` of package `fmt`. -/
def isHexDigit (c : Byte) : Bool := (utf8 "0123456789aAbBcCdDeEfF").contains c

/-- The digit value `strconv.ParseUint` gives a byte: `c - 48` for `0..9`, and
`lower(c) - 97 + 10` for a letter, where `lower(c) = c | 0x20`. -/
def hexVal (c : Byte) : Nat :=
  if 48 ≤ c.val ∧ c.val ≤ 57 then c.val - 48
  else if 65 ≤ c.val ∧ c.val ≤ 90 then c.val + 32 - 97 + 10
  else c.val - 97 + 10

/-- The accumulation `n = n*16 + d` of `strconv.ParseUint` over the digits, without a
bound; `parseInt` checks the range. -/
def parseUintDigits (digits : GoString) : Nat :=
  digits.foldl (fun n c => n * 16 + hexVal c) 0

/-- `strconv.ParseInt(tok, 16, 64)` on a token made of an optional sign and hexadecimal
digits: the range error when the magnitude does not fit (`un >= 1<<64`, or `un >= 1<<63`
without a minus sign, or `un > 1<<63` with one). -/
def parseInt (neg : Bool) (digits : GoString) : Except GoError Int :=
  let un := parseUintDigits digits
  if 18446744073709551616 ≤ un then .error GoError.valueOutOfRange
  else if !neg && 9223372036854775808 ≤ un then .error GoError.valueOutOfRange
  else if neg && 9223372036854775808 < un then .error GoError.valueOutOfRange
  else .ok (if neg then -(un : Int) else (un : Int))

/-- The method `(*ss).scanInt` with verb `x`: skip spaces, fail at the end of the input,
accept one sign, then require one hexadecimal digit and take all that follow; what comes
after the digits is left unread. At the end of the input `notEOF` stops the scan with
`io.EOF`, before the sign and after it. -/
def scanInt (input : GoString) : Except GoError Int :=
  match skipSpace input with
  | .error e => .error e
  | .ok [] => .error GoError.eof
  | .ok (c :: rest) =>
    let neg := c.val = 45
    let afterSign := if c.val = 43 ∨ c.val = 45 then rest else c :: rest
    match afterSign with
    | [] => .error GoError.eof
    | d :: _ =>
      if isHexDigit d then parseInt neg (afterSign.takeWhile isHexDigit)
      else .error GoError.expectedInteger

/-- `fmt.Sscanf(value, "0x%x", &unixTime)`: the literal bytes `0x` of the format must
be the first two bytes of the input (`io.ErrUnexpectedEOF` when the input ends before
them), then the verb scans an integer. `Sscanf` does not look at the input that follows
the last verb. -/
def sscanf0xHex (value : GoString) : Except GoError Int :=
  match value with
  | [] => .error GoError.unexpectedEOF
  | c0 :: rest0 =>
    if c0.val ≠ 48 then .error GoError.inputDoesNotMatchFormat
    else
      match rest0 with
      | [] => .error GoError.unexpectedEOF
      | c1 :: rest =>
        if c1.val ≠ 120 then .error GoError.inputDoesNotMatchFormat
        else scanInt rest

/-- `parseTime` of `log_query.go`. When `Sscanf` returns no error it has stored one
value, so the branch `n < 1` is never taken. The scanned value is an `int64` already
(`parseInt` returned the range error otherwise); the bounds are tested here to build
`time.Unix(unixTime, 0)`. -/
def parseTime (value : GoString) : Except GoError Time :=
  match sscanf0xHex value with
  | .error err => .error err
  | .ok unixTime =>
    if h : -9223372036854775808 ≤ unixTime ∧ unixTime < 9223372036854775808 then
      .ok (timeUnix unixTime h.1 h.2)
    else .error GoError.valueOutOfRange

/-! ## `strings.Split` and `ImportLogQuery` -/

/-- `strings.Split(q, querySeparator)`: the pieces of `q` between the separators; one
(empty) piece for the empty string. -/
def stringsSplit (q : GoString) : List GoString := q.splitOn querySeparator

/-- The loop of `importLogVersion1Query`, started with the query filled so far. -/
def importLogVersion1QueryLoop (q : LogQuery) : List GoString → Except GoError LogQuery
  | [] => .ok q
  | param :: rest =>
    if param.length < PrefixLength then .error (GoError.invalidLogParameter param)
    else
      let paramName := param.take PrefixLength
      let paramValue := param.drop PrefixLength
      if paramName = AuthorPrefix then
        importLogVersion1QueryLoop { q with AuthorRegexp := paramValue } rest
      else if paramName = RefPrefix then
        importLogVersion1QueryLoop { q with Ref := paramValue } rest
      else if paramName = AllPrefix then
        importLogVersion1QueryLoop { q with All := true } rest
      else if paramName = FromTimePrefix then
        match parseTime paramValue with
        | .error err => .error err
        | .ok t => importLogVersion1QueryLoop { q with FromTime := some t } rest
      else if paramName = ToTimePrefix then
        match parseTime paramValue with
        | .error err => .error err
        | .ok t => importLogVersion1QueryLoop { q with ToTime := some t } rest
      else .error (GoError.invalidLogParameterValue param)

/-- `importLogVersion1Query` of `log_query.go`. -/
def importLogVersion1Query (query : List GoString) : Except GoError LogQuery :=
  importLogVersion1QueryLoop LogQuery.zero query

/-- `ImportLogQuery` of `log_query.go`. -/
def ImportLogQuery (q : GoString) : Except GoError LogQuery :=
  match stringsSplit q with
  | [] => .error GoError.invalidLogQuery
  | v :: rest =>
    if v = version1String then importLogVersion1Query rest
    else .error GoError.invalidLogQuery

/-! ## `base64.URLEncoding.WithPadding(base64.NoPadding)` -/

/-- The alphabet `encodeURL` of package `encoding/base64`. -/
def encodeURL : GoString :=
  utf8 "ABCDEFGHIJKLMNOPQRSTUVWXYZabcdefghijklmnopqrstuvwxyz0123456789-_"

/-- The table lookup `enc.encode[i]`. -/
def encodeChar (i : Nat) : Byte := encodeURL.getD i 0

/-- The table `enc.decodeMap`: the index of a byte in the alphabet, `0xff` for a byte
outside it. -/
def decodeMap (c : Byte) : Nat :=
  let i := encodeURL.indexOf c
  if i < 64 then i else 0xff

/-- `EncodeToString` without padding: three bytes give `val = a<<16 | b<<8 | c` and the
four characters `encode[val>>18&0x3F]`, `encode[val>>12&0x3F]`, `encode[val>>6&0x3F]`,
`encode[val&0x3F]`; a remainder of two bytes gives three characters and a remainder of one
byte gives two. The shifted bytes occupy disjoint bits, so `|` is written `+`. -/
def base64Encode : GoString → GoString
  | [] => []
  | [a] =>
    let val := a.val * 65536
    [encodeChar (val / 262144 % 64), encodeChar (val / 4096 % 64)]
  | [a, b] =>
    let val := a.val * 65536 + b.val * 256
    [encodeChar (val / 262144 % 64), encodeChar (val / 4096 % 64), encodeChar (val / 64 % 64)]
  | a :: b :: c :: rest =>
    let val := a.val * 65536 + b.val * 256 + c.val
    encodeChar (val / 262144 % 64) :: encodeChar (val / 4096 % 64) ::
      encodeChar (val / 64 % 64) :: encodeChar (val % 64) :: base64Encode rest

/-- The values of the input characters: the error `CorruptInputError` at the first byte
that `decodeMap` sends to `0xff`. -/
def decodeChars : GoString → Except GoError (List Nat)
  | [] => .ok []
  | c :: rest =>
    if decodeMap c = 0xff then .error GoError.corruptInput
    else
      match decodeChars rest with
      | .error e => .error e
      | .ok vs => .ok (decodeMap c :: vs)

/-- The quanta of `decodeQuantum` (not strict, no padding): four values give
`val = v0<<18 | v1<<12 | v2<<6 | v3` and the bytes `byte(val>>16)`, `byte(val>>8)`,
`byte(val)`; at the end of the input three values give two bytes, two values give one
byte, and a single value is `CorruptInputError`. -/
def decodeQuanta : List Nat → Except GoError GoString
  | [] => .ok []
  | [_] => .error GoError.corruptInput
  | [v0, v1] =>
    let val := v0 * 262144 + v1 * 4096
    .ok [Fin.ofNat (val / 65536)]
  | [v0, v1, v2] =>
    let val := v0 * 262144 + v1 * 4096 + v2 * 64
    .ok [Fin.ofNat (val / 65536), Fin.ofNat (val / 256)]
  | v0 :: v1 :: v2 :: v3 :: rest =>
    let val := v0 * 262144 + v1 * 4096 + v2 * 64 + v3
    match decodeQuanta rest with
    | .error e => .error e
    | .ok bs => .ok (Fin.ofNat (val / 65536) :: Fin.ofNat (val / 256) :: Fin.ofNat val :: bs)

/-- `DecodeString` without padding: carriage returns and newlines in the input are
skipped, every other byte must be in the alphabet, and the values are assembled four at
a time. -/
def base64Decode (s : GoString) : Except GoError GoString :=
  match decodeChars (s.filter fun c => !(c.val = 10 || c.val = 13)) with
  | .error e => .error e
  | .ok vs => decodeQuanta vs

/-- The six-bit values `EncodeToString` looks up in the alphabet, in order. -/
def sextets : GoString → List Nat
  | [] => []
  | [a] =>
    let val := a.val * 65536
    [val / 262144 % 64, val / 4096 % 64]
  | [a, b] =>
    let val := a.val * 65536 + b.val * 256
    [val / 262144 % 64, val / 4096 % 64, val / 64 % 64]
  | a :: b :: c :: rest =>
    let val := a.val * 65536 + b.val * 256 + c.val
    (val / 262144 % 64) :: (val / 4096 % 64) :: (val / 64 % 64) :: (val % 64) :: sextets rest

/-- The characters a filename token may have in the specification: `A-Z`, `a-z`, `0-9`,
`-` and `_`. -/
def isTokenChar (c : Byte) : Bool :=
  (65 ≤ c.val && c.val ≤ 90) || (97 ≤ c.val && c.val ≤ 122) || (48 ≤ c.val && c.val ≤ 57) ||
    c.val = 45 || c.val = 95

/-! ## The filename token -/

/-- `ExportLogQueryFilename` of `log_query.go`. -/
def ExportLogQueryFilename (query : LogQuery) : Except GoError GoString :=
  match ExportLogQuery query with
  | .error err => .error err
  | .ok exportString => .ok (base64Encode exportString)

/-- `ImportLogQueryFilename` of `log_query.go`. -/
def ImportLogQueryFilename (filename : GoString) : Except GoError LogQuery :=
  match base64Decode filename with
  | .error err => .error err
  | .ok data => ImportLogQuery data

/-- Encoding a query into a token and decoding the token:
`ImportLogQueryFilename(ExportLogQueryFilename(q))`. -/
def tokenRoundTrip (q : LogQuery) : Except GoError LogQuery :=
  match ExportLogQueryFilename q with
  | .error err => .error err
  | .ok token => ImportLogQueryFilename token

/-- Two optional times agree: both are unset, or both are set and denote the same
instant. -/
def sameInstant : Option Time → Option Time → Prop
  | none, none => True
  | some t, some u => t.Equal u
  | _, _ => False

/-- The exact shape `0x<hex>` of the specification: `0x`, then one or more hexadecimal
digits, and nothing else. -/
def isExactHexShape (value : GoString) : Bool :=
  match value with
  | c0 :: c1 :: d :: rest => c0.val = 48 && c1.val = 120 && (d :: rest).all isHexDigit
  | _ => false

/-- The five tags of the encoding. -/
def knownTags : List GoString := [AllPrefix, RefPrefix, AuthorPrefix, FromTimePrefix, ToTimePrefix]

/-- `NormalizeLogQuery` of `log_query.go`. -/
def NormalizeLogQuery (query : LogQuery) : Except GoError LogQuery :=
  match ExportLogQuery query with
  | .error err => .error err
  | .ok str => ImportLogQuery str

/-- The value of `params` at the end of `ExportLogQuery`, the version marker apart. -/
def exportedFields (q : LogQuery) : List GoString :=
  (if q.All = true then [AllPrefix] else if q.Ref ≠ [] then [RefPrefix ++ q.Ref] else []) ++
  (if q.AuthorRegexp ≠ [] then [AuthorPrefix ++ q.AuthorRegexp] else []) ++
  (match q.FromTime with | some t => [FromTimePrefix ++ formatTime t] | none => []) ++
  (match q.ToTime with | some t => [ToTimePrefix ++ formatTime t] | none => [])

/-! ## The encoding format of the specification -/

/-- The lowercase hexadecimal numeral of an integer: a minus sign for a negative number,
then the digits of its magnitude. -/
def specHex (v : Int) : GoString :=
  (if v < 0 then utf8 "-" else []) ++
    (Nat.toDigits 16 v.natAbs).map fun c => Fin.ofNat c.toNat

/-- The field of a time in the specification: the tag, `0x`, and the hexadecimal numeral
of the Unix seconds. -/
def specTimeField (tag : String) : Option Time → List GoString
  | some t => [utf8 tag ++ utf8 "0x" ++ specHex t.unix]
  | none => []

/-- The fields of the encoding in the order of the specification: the version; `AL` if
all references are asked for, else `ID` and the reference if there is one; `AU` and the
author pattern if there is one; `FT` and the from-time if set; `TT` and the to-time if
set. -/
def specFields (q : LogQuery) : List GoString :=
  [utf8 "Q1"] ++
    (if q.All = true then [utf8 "AL"] else if q.Ref ≠ [] then [utf8 "ID" ++ q.Ref] else []) ++
    (if q.AuthorRegexp ≠ [] then [utf8 "AU" ++ q.AuthorRegexp] else []) ++
    specTimeField "FT" q.FromTime ++ specTimeField "TT" q.ToTime

/-- What decoding makes of a time that was encoded: the same second, no nanoseconds,
the local zone. -/
def Time.decoded (t : Time) : Time := timeUnix t.unix t.unix_ge t.unix_lt

/-- What decoding makes of a query that was encoded: the reference is dropped when all
references are asked for, and the times are reduced to their second. -/
def LogQuery.decoded (q : LogQuery) : LogQuery :=
  { AuthorRegexp := q.AuthorRegexp
    All := q.All
    Ref := if q.All = true then [] else q.Ref
    FromTime := q.FromTime.map Time.decoded
    ToTime := q.ToTime.map Time.decoded }

/-! ## Files and file maps of `commit_log.go` -/

/-- What the diff reads of an `object.File`: its name, its mode (`filemode.FileMode`, a
`uint32`), the hash of its blob (`plumbing.Hash`, twenty bytes) and the size of its blob
(an `int64`). -/
structure File where
  Name : GoString
  Mode : Nat
  Hash : List Byte
  Size : Int
  deriving DecidableEq

/-- A regular file (mode 0100644) of the given name, hash and size. -/
def regularFile (name : GoString) (hash : List Byte) (size : Int) : File :=
  { Name := name, Mode := 0o100644, Hash := hash, Size := size }

/-- The hash of twenty zero bytes. -/
def zeroHash : List Byte := List.replicate 20 0

/-- A `map[string]*object.File`: its entries in the order in which `range` visits them.
The index expression `m[name]` is the first entry of that name. A Go map holds a key once
and `range` visits in an unspecified order; the theorems below hold for every list. -/
abbrev FileMap := List (GoString × File)

/-- The index expression `fileMap[name]`: `none` stands for the nil pointer. -/
def FileMap.get (m : FileMap) (name : GoString) : Option File := List.lookup name m

/-- The keys that `for name, _ := range fileMap` visits, in order. -/
def FileMap.names (m : FileMap) : List GoString := m.map Prod.fst

/-- The octal loop of `fmt.fmtInteger`: `for u >= 8 { buf[i] = byte(48 + u&7); u >>= 3 }`
and then `buf[i] = byte(48 + u)`. -/
def fmtOctLoop : Nat → Nat → GoString → GoString
  | 0, u, acc => Fin.ofNat (48 + u % 8) :: acc
  | fuel + 1, u, acc =>
    if 8 ≤ u then fmtOctLoop fuel (u / 8) (Fin.ofNat (48 + u % 8) :: acc)
    else Fin.ofNat (48 + u) :: acc

/-- The method `FileMode.String`: `fmt.Sprintf("%07o", uint32(m))`, the octal digits
padded with zeros on the left to seven digits. -/
def modeString (m : Nat) : GoString :=
  let digits := fmtOctLoop m m []
  List.replicate (7 - digits.length) 48 ++ digits

/-- The method `Hash.String`: `hex.EncodeToString(h[:])`, two lowercase hexadecimal
digits a byte. -/
def hashString (h : List Byte) : GoString :=
  h.flatMap fun b => [ldigit (b.val / 16), ldigit (b.val % 16)]

/-- The closure `formatFile` of `commitChangedFiles`. -/
def formatFile : Option File → GoString
  | some file => modeString file.Mode ++ utf8 ":" ++ hashString file.Hash
  | none => utf8 "0000000:0000000000000000000000000000000000000000"

/-- The variables `result` and `fileDone` that the closure `comparer` updates;
`fileDone` lists the names set to true. -/
structure DiffState where
  result : List GoString
  fileDone : List GoString

/-- The closure `comparer` of `commitChangedFiles`, as a step on the state. -/
def comparer (oldFileMap newFileMap : FileMap) (st : DiffState) (name : GoString) :
    DiffState :=
  if !st.fileDone.contains name then
    let oldFile := oldFileMap.get name
    let newFile := newFileMap.get name
    let filesEqual :=
      match oldFile, newFile with
      | some o, some n =>
        decide (o.Mode = n.Mode) && decide (o.Size = n.Size) && decide (o.Hash = n.Hash)
      | _, _ => false
    let result :=
      if !filesEqual then
        match oldFile, newFile with
        | some _, some _ =>
          st.result ++ [name ++ utf8 " change " ++ formatFile oldFile ++ utf8 " " ++
            formatFile newFile]
        | some _, none => st.result ++ [name ++ utf8 " delete " ++ formatFile oldFile]
        | none, some _ => st.result ++ [name ++ utf8 " create " ++ formatFile newFile]
        | none, none => st.result
      else st.result
    { result := result, fileDone := name :: st.fileDone }
  else st

/-- The two `range` loops of `commitChangedFiles` and the `result` it returns, for the
file maps of the parent (`oldFileMap`) and of the commit (`newFileMap`). -/
def changedFiles (oldFileMap newFileMap : FileMap) : List GoString :=
  let st : DiffState := { result := [], fileDone := [] }
  let st := oldFileMap.names.foldl (comparer oldFileMap newFileMap) st
  let st := newFileMap.names.foldl (comparer oldFileMap newFileMap) st
  st.result

/-- The comparison `a <= b` of two Go strings: byte by byte, a proper prefix first. -/
def strLe : GoString → GoString → Bool
  | [], _ => true
  | _ :: _, [] => false
  | a :: as, b :: bs => if a.val < b.val then true else if b.val < a.val then false else strLe as bs

/-- `sort.Strings`: the ascending rearrangement of the list. The order is total and
antisymmetric, so every sorting algorithm returns this same list. -/
def sortStrings (files : List GoString) : List GoString :=
  files.insertionSort fun a b => strLe a b = true

/-- The change lines `commitReport` joins: `commitChangedFiles` and then `sort.Strings`. -/
def sortedChangedFiles (oldFileMap newFileMap : FileMap) : List GoString :=
  sortStrings (changedFiles oldFileMap newFileMap)

/-! ## The change list of the specification -/

/-- The `FileChange` of the specification. -/
inductive FileChange where
  | Create (path : GoString) (newEntry : File)
  | Delete (path : GoString) (oldEntry : File)
  | Modify (path : GoString) (oldEntry newEntry : File)
  deriving DecidableEq

def FileChange.path : FileChange → GoString
  | .Create p _ => p
  | .Delete p _ => p
  | .Modify p _ _ => p

/-- The line `comparer` formats for a change. -/
def FileChange.line : FileChange → GoString
  | .Create p n => p ++ utf8 " create " ++ formatFile (some n)
  | .Delete p o => p ++ utf8 " delete " ++ formatFile (some o)
  | .Modify p o n => p ++ utf8 " change " ++ formatFile (some o) ++ utf8 " " ++ formatFile (some n)

/-- Equality of two entries in the specification: mode, size and content hash all
match. -/
def entriesEqual (o n : File) : Prop := o.Mode = n.Mode ∧ o.Size = n.Size ∧ o.Hash = n.Hash

instance (o n : File) : Decidable (entriesEqual o n) := by
  unfold entriesEqual; infer_instance

/-- The classification of one path in the specification, from its entry in the old and
in the new snapshot. -/
def classify (path : GoString) : Option File → Option File → Option FileChange
  | some o, some n => if entriesEqual o n then none else some (.Modify path o n)
  | some o, none => some (.Delete path o)
  | none, some n => some (.Create path n)
  | none, none => none

/-- The names `comparer` acts on when called on `names` in order with `done` already
done: each name once, at its first visit. -/
def firstVisits : List GoString → List GoString → List GoString
  | _, [] => []
  | done, name :: names =>
    if done.contains name then firstVisits done names
    else name :: firstVisits (name :: done) names

/-- The changes of `commitChangedFiles` as values: the classification of every name at
its first visit, old names before new names. -/
def changes (oldFileMap newFileMap : FileMap) : List FileChange :=
  (firstVisits [] (oldFileMap.names ++ newFileMap.names)).filterMap fun name =>
    classify name (oldFileMap.get name) (newFileMap.get name)

/-- The change seen from the other side: with the snapshots exchanged a created file is
a deleted one and the reverse, and a modified file has its two entries exchanged. -/
def FileChange.swap : FileChange → FileChange
  | .Create p n => .Delete p n
  | .Delete p o => .Create p o
  | .Modify p o n => .Modify p n o

/-- The changes in the order of the sorted lines. -/
def sortedChanges (oldFileMap newFileMap : FileMap) : List FileChange :=
  (changes oldFileMap newFileMap).insertionSort fun a b => strLe a.line b.line = true

/-! ## Commits of `commit_log.go` -/

/-- What the report reads of an `object.Signature`. -/
structure Signature where
  Name : GoString
  Email : GoString
  When : Time

/-- What `fileIter.ForEach` does with the callback of `commitToFileMap`, which never
returns an error: the callback receives `files` one after the other, and `ForEach`
returns `err`, nil when the walk reached its end and the error that stopped it
otherwise. -/
structure FileIter where
  files : List File
  err : Option GoError

/-- What the report reads of an `object.Commit`: its hash, its author, the result of
`commit.Files()` and the result of `commit.Parent(0)`. -/
inductive Commit where
  | mk (Hash : List Byte) (Author : Signature) (Files : Except GoError FileIter)
      (Parent0 : Except GoError Commit)

def Commit.Hash : Commit → List Byte
  | .mk h _ _ _ => h

def Commit.Author : Commit → Signature
  | .mk _ a _ _ => a

/-- The call `commit.Files()`. -/
def Commit.Files : Commit → Except GoError FileIter
  | .mk _ _ f _ => f

/-- The call `commit.Parent(0)`. -/
def Commit.Parent0 : Commit → Except GoError Commit
  | .mk _ _ _ p => p

structure CommitLog where
  Commits : List Commit

/-- The assignment `fileMap[name] = file`: the entry of that name is replaced where it
stands, a new name is added. -/
def FileMap.assign : FileMap → GoString → File → FileMap
  | [], name, file => [(name, file)]
  | (k, v) :: rest, name, file =>
    if k = name then (k, file) :: rest else (k, v) :: FileMap.assign rest name file

/-- `commitToFileMap` of `commit_log.go`, returning the map it has filled. The error of
`commit.Files()` is returned; the error of `fileIter.ForEach` is assigned to `err` and
then `nil` is returned, with the files of the walk so far in the map. -/
def commitToFileMap (commit : Commit) (fileMap : FileMap) : Except GoError FileMap :=
  match commit.Files with
  | .error err => .error err
  | .ok fileIter => .ok (fileIter.files.foldl (fun m f => m.assign f.Name f) fileMap)

/-- `commitChangedFiles` of `commit_log.go`. The maps are visited in the order in which
they were filled; the sorted change list is the same for every order of visit. -/
def commitChangedFiles (commit : Commit) (parent : Option Commit) :
    Except GoError (List GoString) :=
  let oldFileMap : FileMap := []
  let newFileMap : FileMap := []
  match (match parent with
    | some p => commitToFileMap p oldFileMap
    | none => .ok oldFileMap) with
  | .error err => .error err
  | .ok oldFileMap =>
    match commitToFileMap commit newFileMap with
    | .error err => .error err
    | .ok newFileMap => .ok (changedFiles oldFileMap newFileMap)

/-! ## `Truncate(time.Second).UTC().Format(time.RFC3339)` -/

/-- The method `t.Truncate(time.Second)`: the same second, no nanoseconds. -/
def Time.Truncate (t : Time) : Time := { t with nsec := 0, nsec_lt := by decide }

/-- The decimal digits of a number. -/
def decimal (n : Nat) : GoString := (Nat.toDigits 10 n).map fun c => Fin.ofNat c.toNat

/-- The digits padded with zeros on the left to the width (`appendInt` of package
`time`). -/
def zeroPad (width : Nat) (n : Nat) : GoString :=
  List.replicate (width - (decimal n).length) 48 ++ decimal n

/-- The year, month and day of the proleptic Gregorian calendar of a day counted from
1970-01-01. -/
def civilFromDays (days : Int) : Int × Nat × Nat :=
  let z := days + 719468
  let era := z / 146097
  let doe := (z % 146097).toNat
  let yoe := (doe - doe / 1460 + doe / 36524 - doe / 146096) / 365
  let doy := doe - (365 * yoe + yoe / 4 - yoe / 100)
  let mp := (5 * doy + 2) / 153
  let d := doy - (153 * mp + 2) / 5 + 1
  let m := if mp < 10 then mp + 3 else mp - 9
  let y := (yoe : Int) + era * 400 + (if m ≤ 2 then 1 else 0)
  (y, m, d)

/-- The text `2006-01-02T15:04:05Z` of the day `days`, counted from 1970-01-01, and the
second `secs` of the day: the year with at least four digits, a minus sign before a
negative year. -/
def rfc3339Text (days : Int) (secs : Nat) : GoString :=
  let ymd := civilFromDays days
  (if ymd.1 < 0 then utf8 "-" else []) ++ zeroPad 4 ymd.1.natAbs ++ utf8 "-" ++
    zeroPad 2 ymd.2.1 ++ utf8 "-" ++ zeroPad 2 ymd.2.2 ++ utf8 "T" ++
    zeroPad 2 (secs / 3600) ++ utf8 ":" ++ zeroPad 2 (secs % 3600 / 60) ++ utf8 ":" ++
    zeroPad 2 (secs % 60) ++ utf8 "Z"

/-- The UTC date and time of the second `unix`, counted from 1970-01-01T00:00:00Z, in
the format of RFC 3339: what the specification asks of the line `Date`. -/
def specRFC3339 (unix : Int) : GoString :=
  rfc3339Text (unix / 86400) (unix % 86400).toNat

/-- The constant `unixToInternal + internalToAbsolute` of package `time`: the seconds
from January 1 of the year -292277022399, where the absolute count starts, to 1970. -/
def unixToAbsolute : Int := 9223372028715321600

/-- The method `t.abs()` for a time in UTC: `uint64(sec + (unixToInternal +
internalToAbsolute))`, the sum taken modulo 2^64. -/
def Time.abs (t : Time) : Nat := ((t.unix + unixToAbsolute) % 18446744073709551616).toNat

/-- `t.Format(time.RFC3339)` for a time in UTC: the date and the clock are computed from
`t.abs()`, the days and the second of the day of the absolute count. A time before the
start of the absolute count has wrapped around and is printed 2^64 seconds later. -/
def formatRFC3339 (t : Time) : GoString :=
  rfc3339Text ((t.abs / 86400 : Nat) - unixToAbsolute / 86400) (t.abs % 86400)

/-! ## `commitReport` and `CommitLogReport` -/

/-- The first lines of `commitReport`: `parent, err := commit.Parent(0)` and, when `err`
is not nil, `parent = nil`. -/
def firstParent (commit : Commit) : Option Commit :=
  match commit.Parent0 with
  | .error _ => none
  | .ok p => some p

/-- `commitReport` of `commit_log.go`; `fmt.Sprintf` with the verbs `%s` puts the
strings in the places of the verbs. -/
def commitReport (commit : Commit) : Except GoError GoString :=
  let parent : Option Commit := firstParent commit
  match commitChangedFiles commit parent with
  | .error err => .error err
  | .ok files =>
    let files := sortStrings files
    let when := formatRFC3339 commit.Author.When.Truncate.UTC
    .ok (utf8 "Commit " ++ hashString commit.Hash ++ utf8 "\n" ++
      utf8 "Date   " ++ when ++ utf8 "\n" ++
      utf8 "Author " ++ commit.Author.Name ++ utf8 " <" ++ commit.Author.Email ++ utf8 ">\n" ++
      utf8 "\n" ++
      stringsJoin files ++ utf8 "\n" ++
      utf8 "\n" ++
      utf8 "----\n")

/-- A root commit of Ann, of 2024-01-01T00:00:00Z, with the one file `c.txt`. -/
def exampleRootCommit : Commit :=
  Commit.mk zeroHash
    { Name := utf8 "Ann", Email := utf8 "ann@example.org",
      When := timeDate 2024 1 1 0 0 0 (by decide) }
    (.ok { files := [regularFile (utf8 "c.txt") zeroHash 3], err := none })
    (.error GoError.parentNotFound)

/-- The block of `exampleRootCommit`. -/
def exampleRootBlock : GoString :=
  utf8 ("Commit 0000000000000000000000000000000000000000\n" ++
    "Date   2024-01-01T00:00:00Z\n" ++
    "Author Ann <ann@example.org>\n" ++
    "\n" ++
    "c.txt create 0100644:0000000000000000000000000000000000000000\n" ++
    "\n" ++
    "----\n")

/-- A hash of twenty bytes, 0x01 to 0x14. -/
def exampleHash : List Byte :=
  [1, 2, 3, 4, 5, 6, 7, 8, 9, 10, 11, 12, 13, 14, 15, 16, 17, 18, 19, 20]

/-- A commit of Bob on `exampleRootCommit`, of 2000-02-29T12:34:56.0000005 in the local
zone: the file `c.txt` has a new content and the file `a.txt` is new. -/
def exampleChildCommit : Commit :=
  Commit.mk exampleHash
    { Name := utf8 "Bob", Email := utf8 "bob@example.org",
      When :=
        { unix := 951827696, nsec := 500, loc := Location.Local,
          unix_ge := by decide, unix_lt := by decide, nsec_lt := by decide } }
    (.ok { files := [regularFile (utf8 "c.txt") exampleHash 4,
                     regularFile (utf8 "a.txt") zeroHash 0], err := none })
    (.ok exampleRootCommit)

/-- The block of `exampleChildCommit`. -/
def exampleChildBlock : GoString :=
  utf8 ("Commit 0102030405060708090a0b0c0d0e0f1011121314\n" ++
    "Date   2000-02-29T12:34:56Z\n" ++
    "Author Bob <bob@example.org>\n" ++
    "\n" ++
    "a.txt create 0100644:0000000000000000000000000000000000000000\n" ++
    "c.txt change 0100644:0000000000000000000000000000000000000000 " ++
      "0100644:0102030405060708090a0b0c0d0e0f1011121314\n" ++
    "\n" ++
    "----\n")

/-- A commit whose first parent has a tree that cannot be read. -/
def exampleBrokenParentCommit : Commit :=
  Commit.mk zeroHash
    { Name := utf8 "Ann", Email := utf8 "ann@example.org",
      When := timeDate 2024 1 1 0 0 0 (by decide) }
    (.ok { files := [regularFile (utf8 "c.txt") zeroHash 3], err := none })
    (.ok (Commit.mk zeroHash
      { Name := utf8 "Ann", Email := utf8 "ann@example.org",
        When := timeDate 2023 12 31 0 0 0 (by decide) }
      (.error GoError.objectNotFound) (.error GoError.parentNotFound)))

/-- The loop of `CommitLogReport`, with the content of the `strings.Builder` so far. -/
def commitLogReportLoop (sb : GoString) : List Commit → Except GoError GoString
  | [] => .ok sb
  | commit :: rest =>
    match commitReport commit with
    | .error err => .error err
    | .ok report => commitLogReportLoop (sb ++ report) rest

/-- `CommitLogReport` of `commit_log.go`. -/
def CommitLogReport (commitLog : CommitLog) : Except GoError GoString :=
  commitLogReportLoop [] commitLog.Commits

/-- The loop of `WriteCommitLogReport`: what has been written to `out`, and the error
returned (nil at the end of the list). -/
def writeCommitLogReportLoop (out : GoString) : List Commit → GoString × Option GoError
  | [] => (out, none)
  | commit :: rest =>
    match commitReport commit with
    | .error err => (out, some err)
    | .ok report => writeCommitLogReportLoop (out ++ report) rest

/-- `WriteCommitLogReport` of `commit_log.go`, for a file that is empty at the start. -/
def WriteCommitLogReport (commitLog : CommitLog) : GoString × Option GoError :=
  writeCommitLogReportLoop [] commitLog.Commits

/-- The commit block of the specification. -/
def specCommitBlock (hash date name email : GoString) (changeLines : List GoString) :
    GoString :=
  utf8 "Commit " ++ hash ++ utf8 "\nDate   " ++ date ++ utf8 "\nAuthor " ++ name ++
    utf8 " <" ++ email ++ utf8 ">\n\n" ++ [querySeparator].intercalate changeLines ++
    utf8 "\n\n----\n"

/-! ## The file name of a report and `filenameRegexp` of `main.go` -/

/-- The base name `fmt.Sprintf("%s-LQ%s.txt", repoName, fileName)` of a report. -/
def reportFileName (repoName token : GoString) : GoString :=
  repoName ++ utf8 "-LQ" ++ token ++ utf8 ".txt"

/-- Whether the bytes are the UTF-8 encoding of one rune of two, three or four bytes, by
the table of `utf8.DecodeRune`. -/
def isLongRune : GoString → Bool
  | [a, b] => 0xC2 ≤ a.val && a.val ≤ 0xDF && 0x80 ≤ b.val && b.val ≤ 0xBF
  | [a, b, c] =>
    0x80 ≤ c.val && c.val ≤ 0xBF &&
      ((a.val = 0xE0 && 0xA0 ≤ b.val && b.val ≤ 0xBF) ||
       (a.val = 0xED && 0x80 ≤ b.val && b.val ≤ 0x9F) ||
       (0xE1 ≤ a.val && a.val ≤ 0xEF && a.val ≠ 0xED && 0x80 ≤ b.val && b.val ≤ 0xBF))
  | [a, b, c, d] =>
    0x80 ≤ c.val && c.val ≤ 0xBF && 0x80 ≤ d.val && d.val ≤ 0xBF &&
      ((a.val = 0xF0 && 0x90 ≤ b.val && b.val ≤ 0xBF) ||
       (a.val = 0xF4 && 0x80 ≤ b.val && b.val ≤ 0x8F) ||
       (0xF1 ≤ a.val && a.val ≤ 0xF3 && 0x80 ≤ b.val && b.val ≤ 0xBF))
  | _ => false

/-- Whether `r` is `([A-Za-z0-9_-]+).txt` up to its end with a `.` of `width` bytes: a
non-empty group of characters of the class, one rune that is not a newline, and `txt`.
A single byte before `txt` is always one rune, a byte that starts no valid encoding being
read as U+FFFD. -/
def groupOfWidth (r : GoString) (width : Nat) : Option GoString :=
  let group := r.take (r.length - (width + 3))
  let dot := (r.drop (r.length - (width + 3))).take width
  if width + 4 ≤ r.length && r.drop (r.length - 3) == utf8 "txt" && group.all isTokenChar &&
      (if width = 1 then dot != [10] else isLongRune dot) then
    some group
  else none

/-- The first group of a match of `-LQ([A-Za-z0-9_-]+).txt$` that begins where `s`
begins. The group and the rune of `.` end three bytes before the end, so the width of
the rune fixes the group, and at most one width gives a match. -/
def matchFromLQ (s : GoString) : Option GoString :=
  if (utf8 "-LQ").isPrefixOf s then
    let r := s.drop 3
    match groupOfWidth r 1 with
    | some g => some g
    | none =>
      match groupOfWidth r 2 with
      | some g => some g
      | none =>
        match groupOfWidth r 3 with
        | some g => some g
        | none => groupOfWidth r 4
  else none

/-- The element `result[1]` of `filenameRegexp.FindStringSubmatch(s)` for
`^.*?-LQ([A-Za-z0-9_-]+).txt$`, `none` when there is no match: the lazy `.*?` takes as
few runes as it can, none of them a newline, so the match is found at the first place
where the rest of the expression matches. A step of one byte is a step of one rune
wherever a match can begin: a byte inside the encoding of a rune is at least 0x80, and a
match begins with `-`. -/
def filenameSubmatch : GoString → Option GoString
  | [] => none
  | c :: rest =>
    match matchFromLQ (c :: rest) with
    | some g => some g
    | none => if c.val = 10 then none else filenameSubmatch rest

/-- The function `filepath.Base` of Go on a system whose separator is `/`: the last
element of the path, after the removal of the slashes at the end; `.` for the empty path
and `/` for a path of slashes. -/
def filepathBase (path : GoString) : GoString :=
  if path = [] then utf8 "."
  else
    let path := (path.reverse.dropWhile (fun c => c.val = 47)).reverse
    let path := (path.reverse.takeWhile (fun c => c.val ≠ 47)).reverse
    if path = [] then utf8 "/" else path

/-- The value of `queryString` that `main` passes to `ImportLogQueryFilename`, from the
base name of the flag `query`. -/
def queryStringOf (base : GoString) : GoString :=
  match filenameSubmatch base with
  | some g => g
  | none => base

/-! ## The filter of `QueryCommitLog` -/

/-- The constant `unixToInternal` of package `time`: the seconds from January 1 of the
year 1 to 1970. -/
def unixToInternal : Int := 62135596800

/-- The method `t.sec()` of a time without a monotonic clock reading: the field `ext`,
which `time.Unix` sets to `sec + unixToInternal`, a sum of `int64` that wraps around. -/
def Time.sec (t : Time) : Int :=
  (t.unix + unixToInternal + 9223372036854775808) % 18446744073709551616 -
    9223372036854775808

/-- The method `t.Before(u)`: `ts < us || ts == us && t.nsec() < u.nsec()`. -/
def Time.Before (t u : Time) : Bool :=
  decide (t.sec < u.sec) || (decide (t.sec = u.sec) && decide (t.nsec < u.nsec))

/-- The method `t.After(u)`: `ts > us || ts == us && t.nsec() > u.nsec()`. -/
def Time.After (t u : Time) : Bool :=
  decide (t.sec > u.sec) || (decide (t.sec = u.sec) && decide (t.nsec > u.nsec))

/-- The callback of `commitIterator.ForEach` in `QueryCommitLog`, as a step on
`result.Commits`; `authorRegexp` is the method `MatchString` of the compiled pattern,
`none` for the nil pointer. -/
def queryCallback (query : LogQuery) (authorRegexp : Option (GoString → Bool))
    (result : List Commit) (c : Commit) : List Commit :=
  if (match query.FromTime with
      | some fromTime => c.Author.When.Before fromTime
      | none => false) then result
  else if (match query.ToTime with
      | some toTime => c.Author.When.After toTime
      | none => false) then result
  else if (match authorRegexp with
      | some re => !re c.Author.Email
      | none => false) then result
  else result ++ [c]

/-- The commits `QueryCommitLog` returns for the commits the history iterator supplies,
in its order. -/
def queryCommits (query : LogQuery) (authorRegexp : Option (GoString → Bool))
    (supplied : List Commit) : List Commit :=
  supplied.foldl (queryCallback query authorRegexp) []

/-- The order of instants: `t` is `u` or earlier than `u`. -/
def notLater (t u : Time) : Prop :=
  t.unix < u.unix ∨ (t.unix = u.unix ∧ t.nsec ≤ u.nsec)

instance (t u : Time) : Decidable (notLater t u) := by
  unfold notLater; infer_instance

/-- The commits of a window closed at both ends: the author time is at or after the
from-time if it is set, at or before the to-time if it is set, and the author pattern,
if there is one, matches the email. -/
def specKeeps (query : LogQuery) (authorRegexp : Option (GoString → Bool)) (c : Commit) :
    Bool :=
  (match query.FromTime with
    | some fromTime => decide (notLater fromTime c.Author.When)
    | none => true) &&
  (match query.ToTime with
    | some toTime => decide (notLater c.Author.When toTime)
    | none => true) &&
  (match authorRegexp with
    | some re => re c.Author.Email
    | none => true)

/-- The condition of the specification for keeping a commit of author time `t`: at or
after the from-time if it is set, and before the to-time if it is set. -/
def specInWindow (query : LogQuery) (t : Time) : Prop :=
  (∀ f, query.FromTime = some f → notLater f t) ∧
  (∀ u, query.ToTime = some u → ¬ notLater u t)

/-- The largest second count `time.Unix` takes without a wrap of the field `ext`:
`1<<63 - 1 - unixToInternal`, a second of the year 292277024627. -/
def maxPlainUnix : Int := 9223371974719179007

/-! # Theorems -/

/-! ## Hexadecimal digits -/

theorem hexVal_ldigit : ∀ d, d < 16 → hexVal (ldigit d) = d := by decide

theorem isHexDigit_ldigit : ∀ d, d < 16 → isHexDigit (ldigit d) = true := by decide

set_option maxRecDepth 100000 in
theorem isHexDigit_props : ∀ c : Byte, isHexDigit c = true →
    c.val ≠ 10 ∧ isAsciiSpace c = false ∧ c.val < 128 ∧ c.val ≠ 43 ∧ c.val ≠ 45 := by decide

/-- Parsing the digits the formatting loop wrote gives the number back. -/
theorem parse_fmtHexLoop (fuel : Nat) : ∀ (u : Nat) (acc : GoString), u ≤ fuel →
    (fmtHexLoop fuel u acc).foldl (fun n c => n * 16 + hexVal c) 0 =
      acc.foldl (fun n c => n * 16 + hexVal c) u := by
  induction fuel with
  | zero =>
    intro u acc hu
    have h0 : u = 0 := by omega
    subst h0
    simp [fmtHexLoop, hexVal_ldigit]
  | succ fuel ih =>
    intro u acc hu
    unfold fmtHexLoop
    split
    · rename_i h16
      rw [ih (u / 16) _ (by omega)]
      simp only [List.foldl_cons]
      rw [hexVal_ldigit _ (Nat.mod_lt _ (by decide))]
      congr 1
      omega
    · rename_i h16
      simp only [List.foldl_cons]
      rw [hexVal_ldigit _ (by omega)]
      congr 1
      omega

theorem parseUintDigits_fmtHex (u : Nat) : parseUintDigits (fmtHex u) = u := by
  unfold parseUintDigits fmtHex
  rw [parse_fmtHexLoop u u [] (Nat.le_refl u)]
  rfl

/-- The formatting loop writes hexadecimal digits only. -/
theorem all_fmtHexLoop (fuel : Nat) : ∀ (u : Nat) (acc : GoString),
    (∀ c ∈ acc, isHexDigit c = true) → ∀ c ∈ fmtHexLoop fuel u acc, isHexDigit c = true := by
  induction fuel with
  | zero =>
    intro u acc hacc c hc
    simp only [fmtHexLoop, List.mem_cons] at hc
    rcases hc with rfl | hc
    · exact isHexDigit_ldigit _ (Nat.mod_lt _ (by decide))
    · exact hacc c hc
  | succ fuel ih =>
    intro u acc hacc c hc
    unfold fmtHexLoop at hc
    split at hc
    · refine ih (u / 16) _ ?_ c hc
      intro c hc
      rcases List.mem_cons.1 hc with rfl | hc
      · exact isHexDigit_ldigit _ (Nat.mod_lt _ (by decide))
      · exact hacc c hc
    · rename_i h16
      rcases List.mem_cons.1 hc with rfl | hc
      · exact isHexDigit_ldigit _ (by omega)
      · exact hacc c hc

theorem all_fmtHex (u : Nat) : ∀ c ∈ fmtHex u, isHexDigit c = true :=
  all_fmtHexLoop u u [] (by simp)

theorem fmtHexLoop_ne_nil (fuel u : Nat) (acc : GoString) : fmtHexLoop fuel u acc ≠ [] := by
  induction fuel generalizing u acc with
  | zero => simp [fmtHexLoop]
  | succ fuel ih =>
    unfold fmtHexLoop
    split
    · exact ih _ _
    · simp

theorem fmtHex_ne_nil (u : Nat) : fmtHex u ≠ [] := fmtHexLoop_ne_nil u u []

theorem takeWhile_eq_self {α : Type} (p : α → Bool) (l : List α) (h : ∀ c ∈ l, p c = true) :
    l.takeWhile p = l := by
  induction l with
  | nil => rfl
  | cons a l ih =>
    simp only [List.takeWhile_cons, h a (List.mem_cons_self a l), if_true]
    rw [ih (fun c hc => h c (List.mem_cons_of_mem a hc))]

/-! ## Scanning what `formatTime` wrote -/

theorem skipSpace_of_plain (c : Byte) (rest : GoString) (h1 : c.val ≠ 10)
    (h2 : isAsciiSpace c = false) (h3 : c.val < 128) :
    skipSpace (c :: rest) = .ok (c :: rest) := by
  have e2 : ∀ d, isSpace2 c d = false := by
    intro d
    simp only [isSpace2, Bool.and_eq_false_imp, decide_eq_true_eq]
    omega
  have e3 : ∀ d e, isSpace3 c d e = false := by
    intro d e
    have a1 : c.val ≠ 0xE1 := by omega
    have a2 : c.val ≠ 0xE2 := by omega
    have a3 : c.val ≠ 0xE3 := by omega
    simp [isSpace3, a1, a2, a3]
  unfold skipSpace
  simp only [h1, h2, if_false, Bool.false_eq_true]
  cases rest with
  | nil => rfl
  | cons d rest2 =>
    simp only [e2, Bool.false_eq_true, if_false]
    cases rest2 with
    | nil => rfl
    | cons e rest3 => simp only [e3, Bool.false_eq_true, if_false]

theorem scanInt_digits (ds : GoString) (hne : ds ≠ []) (hall : ∀ c ∈ ds, isHexDigit c = true) :
    scanInt ds = parseInt false ds := by
  cases ds with
  | nil => exact absurd rfl hne
  | cons d rest =>
    have hd := hall d (List.mem_cons_self d rest)
    obtain ⟨p1, p2, p3, p4, p5⟩ := isHexDigit_props d hd
    unfold scanInt
    rw [skipSpace_of_plain d rest p1 p2 p3]
    simp only [p4, p5, or_self, if_false, hd, if_true, decide_False]
    rw [takeWhile_eq_self _ _ hall]

theorem scanInt_minus_digits (ds : GoString) (hne : ds ≠ [])
    (hall : ∀ c ∈ ds, isHexDigit c = true) :
    scanInt ((45 : Byte) :: ds) = parseInt true ds := by
  cases ds with
  | nil => exact absurd rfl hne
  | cons d rest =>
    have hd := hall d (List.mem_cons_self d rest)
    unfold scanInt
    rw [skipSpace_of_plain 45 (d :: rest) (by decide) (by decide) (by decide)]
    have h45 : ((45 : Byte).val = 45) := by decide
    simp only [h45, or_true, if_true, hd, decide_True]
    rw [takeWhile_eq_self _ _ hall]

theorem sscanf0xHex_sprintf0xHex (v : Int) (h1 : -9223372036854775808 ≤ v)
    (h2 : v < 9223372036854775808) : sscanf0xHex (sprintf0xHex v) = .ok v := by
  have hx : utf8 "0x" = [(48 : Byte), (120 : Byte)] := by decide
  have hm : utf8 "-" = [(45 : Byte)] := by decide
  unfold sprintf0xHex
  rw [hx]
  by_cases hneg : v < 0
  · simp only [hneg, if_true, hm, List.cons_append, List.nil_append, sscanf0xHex]
    have e48 : ((48 : Byte).val ≠ 48) = False := by decide
    have e120 : ((120 : Byte).val ≠ 120) = False := by decide
    simp only [e48, e120, if_false]
    rw [scanInt_minus_digits _ (fmtHex_ne_nil _) (all_fmtHex _)]
    unfold parseInt
    simp only [parseUintDigits_fmtHex]
    have a1 : ¬ (18446744073709551616 ≤ v.natAbs) := by omega
    have a3 : ¬ (9223372036854775808 < v.natAbs) := by omega
    simp [a1, a3]
    rw [abs_of_neg hneg, neg_neg]
  · simp only [hneg, if_false, List.cons_append, List.nil_append, sscanf0xHex, List.append_nil]
    have e48 : ((48 : Byte).val ≠ 48) = False := by decide
    have e120 : ((120 : Byte).val ≠ 120) = False := by decide
    simp only [e48, e120, if_false]
    rw [scanInt_digits _ (fmtHex_ne_nil _) (all_fmtHex _)]
    unfold parseInt
    simp only [parseUintDigits_fmtHex]
    have a1 : ¬ (18446744073709551616 ≤ v.natAbs) := by omega
    have a2 : ¬ (9223372036854775808 ≤ v.natAbs) := by omega
    simp [a1, a2]
    omega

/-- Parsing a formatted time gives the time of the same second, in the local zone. -/
theorem parseTime_formatTime (t : Time) :
    parseTime (formatTime t) = .ok (timeUnix t.unix t.unix_ge t.unix_lt) := by
  unfold parseTime formatTime
  have e : t.UTC.Unix = t.unix := rfl
  rw [e, sscanf0xHex_sprintf0xHex t.unix t.unix_ge t.unix_lt]
  simp only [t.unix_ge, t.unix_lt, and_self, dite_true]

/-! ## Splitting what was joined -/

theorem stringsSplit_stringsJoin (params : List GoString) (hne : params ≠ [])
    (h : ∀ p ∈ params, querySeparator ∉ p) : stringsSplit (stringsJoin params) = params := by
  unfold stringsSplit stringsJoin
  exact List.splitOn_intercalate params querySeparator h hne

/-! ## The hexadecimal numeral of the specification -/

theorem digitChar_eq_ldigit : ∀ d, d < 16 →
    (Fin.ofNat (Nat.digitChar d).toNat : Byte) = ldigit d := by decide

theorem toDigitsCore_eq_fmtHexLoop (f : Nat) : ∀ (f2 u : Nat) (ds : List Char),
    u < f → u ≤ f2 →
    (Nat.toDigitsCore 16 f u ds).map (fun c => (Fin.ofNat c.toNat : Byte)) =
      fmtHexLoop f2 u (ds.map fun c => (Fin.ofNat c.toNat : Byte)) := by
  induction f with
  | zero => intro f2 u ds h; omega
  | succ f ih =>
    intro f2 u ds h1 h2
    unfold Nat.toDigitsCore
    cases f2 with
    | zero =>
      have h0 : u = 0 := by omega
      subst h0
      simp [fmtHexLoop, digitChar_eq_ldigit]
    | succ f2 =>
      unfold fmtHexLoop
      by_cases h16 : 16 ≤ u
      · have hq : u / 16 ≠ 0 := by omega
        simp only [hq, if_false, h16, if_true]
        rw [ih f2 (u / 16) _ (by omega) (by omega)]
        simp only [List.map_cons]
        rw [digitChar_eq_ldigit _ (Nat.mod_lt _ (by decide))]
      · have hq : u / 16 = 0 := by omega
        have hm : u % 16 = u := by omega
        simp only [hq, if_true, h16, if_false, List.map_cons, hm]
        rw [digitChar_eq_ldigit _ (by omega)]

theorem specHex_eq (v : Int) : utf8 "0x" ++ specHex v = sprintf0xHex v := by
  unfold specHex sprintf0xHex Nat.toDigits fmtHex
  rw [toDigitsCore_eq_fmtHexLoop _ _ _ _ (Nat.lt_succ_self _) (Nat.le_refl _)]
  simp

/-! ## The claims on the encoder -/

/-- C7: the text `ExportLogQuery` returns is the newline-join of the fields of the
specification, in its order: the version, then `AL` or else `ID` with a non-empty
reference, then `AU` with a non-empty author pattern, then `FT` and `TT` with `0x` and
the lowercase hexadecimal Unix seconds of the times that are set; and none of these
fields is empty. -/
theorem C7_export_format (q : LogQuery) :
    ExportLogQuery q = .ok (stringsJoin (specFields q)) ∧
      ∀ f ∈ specFields q, 2 ≤ f.length := by
  have hft : ∀ (tag : String) (t : Time),
      utf8 tag ++ utf8 "0x" ++ specHex t.unix = utf8 tag ++ formatTime t := by
    intro tag t
    rw [List.append_assoc, specHex_eq]
    rfl
  have hlen : ∀ (v : Int), 2 ≤ (sprintf0xHex v).length := by
    intro v
    have hx : utf8 "0x" = [(48 : Byte), (120 : Byte)] := by decide
    unfold sprintf0xHex
    rw [hx]
    simp only [List.cons_append, List.length_cons]
    omega
  constructor
  · unfold ExportLogQuery specFields specTimeField
    obtain ⟨au, all, ref, ft, tt⟩ := q
    cases all <;> cases ft <;> cases tt <;> by_cases h1 : ref = [] <;>
      by_cases h2 : au = [] <;>
      simp [h1, h2, hft, version1String, AllPrefix, RefPrefix, AuthorPrefix, FromTimePrefix,
        ToTimePrefix, List.length_pos]
  · intro f hf
    unfold specFields specTimeField at hf
    have h2 : ∀ (tag : String) (r : GoString), 2 ≤ (utf8 tag).length →
        2 ≤ (utf8 tag ++ r).length := by
      intro tag r h
      rw [List.length_append]
      omega
    have hAL : 2 ≤ (utf8 "AL").length := by decide
    have hQ1 : 2 ≤ (utf8 "Q1").length := by decide
    have hID : 2 ≤ (utf8 "ID").length := by decide
    have hAU : 2 ≤ (utf8 "AU").length := by decide
    have hFT : 2 ≤ (utf8 "FT").length := by decide
    have hTT : 2 ≤ (utf8 "TT").length := by decide
    obtain ⟨au, all, ref, ft, tt⟩ := q
    simp only [List.mem_append, List.mem_singleton] at hf
    rcases hf with (((hf | hf) | hf) | hf) | hf
    · rw [hf]; exact hQ1
    · split at hf
      · rw [List.mem_singleton.1 hf]; exact hAL
      · split at hf
        · rw [List.mem_singleton.1 hf]; exact h2 _ _ hID
        · simp at hf
    · split at hf
      · rw [List.mem_singleton.1 hf]; exact h2 _ _ hAU
      · simp at hf
    · cases ft with
      | none => simp at hf
      | some t =>
        rw [List.mem_singleton.1 hf, List.append_assoc]; exact h2 _ _ hFT
    · cases tt with
      | none => simp at hf
      | some t =>
        rw [List.mem_singleton.1 hf, List.append_assoc]; exact h2 _ _ hTT

/-- C8 as stated fails: 2024-01-01T00:00:00Z is 1704067200 seconds after the epoch, which
is `0x65920080`, so the encoding of the example query is not the text with `65920f80`. -/
theorem C8_counterexample :
    ExportLogQuery { LogQuery.zero with
        All := true, FromTime := some (timeDate 2024 1 1 0 0 0 (by decide)) } ≠
      .ok (utf8 "Q1\nAL\nFT0x65920f80") := by
  decide

/-- C8, amended: encoding the query with `All` set and `FromTime` 2024-01-01T00:00:00Z
and nothing else gives exactly the three fields `Q1`, `AL`, `FT0x65920080` joined by
newlines. -/
theorem C8_example_export :
    ExportLogQuery { LogQuery.zero with
        All := true, FromTime := some (timeDate 2024 1 1 0 0 0 (by decide)) } =
      .ok (utf8 "Q1\nAL\nFT0x65920080") := by
  decide

/-! ## Decoding what was encoded -/

theorem loop_all (q : LogQuery) (rest : List GoString) :
    importLogVersion1QueryLoop q (AllPrefix :: rest) =
      importLogVersion1QueryLoop { q with All := true } rest := by
  rw [importLogVersion1QueryLoop]
  have h1 : ¬ (AllPrefix.length < PrefixLength) := by decide
  have h2 : List.take PrefixLength AllPrefix = AllPrefix := by decide
  have h3 : AllPrefix ≠ AuthorPrefix := by decide
  have h4 : AllPrefix ≠ RefPrefix := by decide
  simp only [h1, h2, h3, h4, if_false, if_true]

theorem loop_nil (q : LogQuery) : importLogVersion1QueryLoop q [] = .ok q := rfl

theorem take_tag (tag value : GoString) (h : tag.length = 2) :
    List.take PrefixLength (tag ++ value) = tag := by
  unfold PrefixLength
  rw [← h, List.take_left]

theorem drop_tag (tag value : GoString) (h : tag.length = 2) :
    List.drop PrefixLength (tag ++ value) = value := by
  unfold PrefixLength
  rw [← h, List.drop_left]

theorem not_short (tag value : GoString) (h : tag.length = 2) :
    ¬ ((tag ++ value).length < PrefixLength) := by
  unfold PrefixLength
  rw [List.length_append]
  omega

theorem loop_ref (q : LogQuery) (ref : GoString) (rest : List GoString) :
    importLogVersion1QueryLoop q ((RefPrefix ++ ref) :: rest) =
      importLogVersion1QueryLoop { q with Ref := ref } rest := by
  rw [importLogVersion1QueryLoop]
  have hl : RefPrefix.length = 2 := by decide
  have h3 : RefPrefix ≠ AuthorPrefix := by decide
  simp only [not_short _ _ hl, take_tag _ _ hl, drop_tag _ _ hl, h3, if_false, if_true]

theorem loop_author (q : LogQuery) (au : GoString) (rest : List GoString) :
    importLogVersion1QueryLoop q ((AuthorPrefix ++ au) :: rest) =
      importLogVersion1QueryLoop { q with AuthorRegexp := au } rest := by
  rw [importLogVersion1QueryLoop]
  have hl : AuthorPrefix.length = 2 := by decide
  simp only [not_short _ _ hl, take_tag _ _ hl, drop_tag _ _ hl, if_false, if_true]

theorem loop_from (q : LogQuery) (t : Time) (rest : List GoString) :
    importLogVersion1QueryLoop q ((FromTimePrefix ++ formatTime t) :: rest) =
      importLogVersion1QueryLoop { q with FromTime := some t.decoded } rest := by
  rw [importLogVersion1QueryLoop]
  have hl : FromTimePrefix.length = 2 := by decide
  have h1 : FromTimePrefix ≠ AuthorPrefix := by decide
  have h2 : FromTimePrefix ≠ RefPrefix := by decide
  have h3 : FromTimePrefix ≠ AllPrefix := by decide
  simp only [not_short _ _ hl, take_tag _ _ hl, drop_tag _ _ hl, h1, h2, h3, if_false, if_true,
    parseTime_formatTime]
  rfl

theorem loop_to (q : LogQuery) (t : Time) (rest : List GoString) :
    importLogVersion1QueryLoop q ((ToTimePrefix ++ formatTime t) :: rest) =
      importLogVersion1QueryLoop { q with ToTime := some t.decoded } rest := by
  rw [importLogVersion1QueryLoop]
  have hl : ToTimePrefix.length = 2 := by decide
  have h1 : ToTimePrefix ≠ AuthorPrefix := by decide
  have h2 : ToTimePrefix ≠ RefPrefix := by decide
  have h3 : ToTimePrefix ≠ AllPrefix := by decide
  have h4 : ToTimePrefix ≠ FromTimePrefix := by decide
  simp only [not_short _ _ hl, take_tag _ _ hl, drop_tag _ _ hl, h1, h2, h3, h4, if_false,
    if_true, parseTime_formatTime]
  rfl

/-- The fields `ExportLogQuery` joins, the version marker apart. -/
theorem export_eq (q : LogQuery) :
    ExportLogQuery q = .ok (stringsJoin (version1String :: exportedFields q)) := by
  unfold ExportLogQuery exportedFields
  obtain ⟨au, all, ref, ft, tt⟩ := q
  cases all <;> cases ft <;> cases tt <;> by_cases h1 : ref = [] <;>
    by_cases h2 : au = [] <;> simp [h1, h2, List.length_pos]

theorem loop_exported (q : LogQuery) :
    importLogVersion1QueryLoop LogQuery.zero (exportedFields q) = .ok q.decoded := by
  unfold exportedFields
  obtain ⟨au, all, ref, ft, tt⟩ := q
  cases all <;> cases ft <;> cases tt <;> by_cases h1 : ref = [] <;>
    by_cases h2 : au = [] <;>
    simp [h1, h2, loop_all, loop_ref, loop_author, loop_from, loop_to,
      loop_nil, LogQuery.decoded, LogQuery.zero]

theorem no_separator_formatTime (t : Time) : querySeparator ∉ formatTime t := by
  intro h
  unfold formatTime sprintf0xHex at h
  have hx : utf8 "0x" = [(48 : Byte), (120 : Byte)] := by decide
  have hm : utf8 "-" = [(45 : Byte)] := by decide
  rw [hx, hm] at h
  rcases List.mem_append.1 h with h | h
  · rcases List.mem_append.1 h with h | h
    · revert h; decide
    · split at h
      · revert h; decide
      · simp at h
  · have := (isHexDigit_props _ (all_fmtHex _ _ h)).1
    exact this (by decide)

theorem no_separator_tag (tag value : GoString) (h1 : querySeparator ∉ tag)
    (h2 : querySeparator ∉ value) : querySeparator ∉ tag ++ value := by
  intro h
  rcases List.mem_append.1 h with h | h
  · exact h1 h
  · exact h2 h

theorem split_export (q : LogQuery) (hau : querySeparator ∉ q.AuthorRegexp)
    (href : q.All = true ∨ querySeparator ∉ q.Ref) :
    stringsSplit (stringsJoin (version1String :: exportedFields q)) =
      version1String :: exportedFields q := by
  rw [stringsSplit_stringsJoin _ (List.cons_ne_nil _ _)]
  · intro p hp
    unfold exportedFields at hp
    have hQ : querySeparator ∉ version1String := by decide
    have hAL : querySeparator ∉ AllPrefix := by decide
    have hID : querySeparator ∉ RefPrefix := by decide
    have hAU : querySeparator ∉ AuthorPrefix := by decide
    have hFT : querySeparator ∉ FromTimePrefix := by decide
    have hTT : querySeparator ∉ ToTimePrefix := by decide
    obtain ⟨au, all, ref, ft, tt⟩ := q
    simp only [List.mem_cons, List.mem_append] at hp
    rcases hp with hp | ((hp | hp) | hp) | hp
    · rw [hp]; exact hQ
    · split at hp
      · rw [List.mem_singleton.1 hp]; exact hAL
      · rename_i hall
        split at hp
        · rw [List.mem_singleton.1 hp]
          refine no_separator_tag _ _ hID ?_
          rcases href with h | h
          · exact absurd h hall
          · exact h
        · simp at hp
    · split at hp
      · rw [List.mem_singleton.1 hp]; exact no_separator_tag _ _ hAU hau
      · simp at hp
    · cases ft with
      | none => simp at hp
      | some t =>
        rw [List.mem_singleton.1 hp]; exact no_separator_tag _ _ hFT (no_separator_formatTime t)
    · cases tt with
      | none => simp at hp
      | some t =>
        rw [List.mem_singleton.1 hp]; exact no_separator_tag _ _ hTT (no_separator_formatTime t)

/-- Decoding the text of a query whose author pattern has no newline, and whose
reference, when it is encoded, has none, gives the query back as decoding makes it. -/
theorem import_export (q : LogQuery) (hau : querySeparator ∉ q.AuthorRegexp)
    (href : q.All = true ∨ querySeparator ∉ q.Ref) :
    ∃ text, ExportLogQuery q = .ok text ∧ ImportLogQuery text = .ok q.decoded := by
  refine ⟨_, export_eq q, ?_⟩
  unfold ImportLogQuery
  rw [split_export q hau href]
  simp only [if_true]
  exact loop_exported q

/-! ## Base64 -/

theorem decodeMap_encodeChar : ∀ i, i < 64 → decodeMap (encodeChar i) = i := by decide

theorem encodeChar_plain : ∀ i, i < 64 →
    (!((encodeChar i).val = 10 || (encodeChar i).val = 13)) = true := by decide

theorem isTokenChar_encodeChar : ∀ i, i < 64 → isTokenChar (encodeChar i) = true := by decide

theorem base64Encode_eq_map (bs : GoString) : base64Encode bs = (sextets bs).map encodeChar := by
  induction bs using base64Encode.induct with
  | case1 => rfl
  | case2 a => rfl
  | case3 a b => rfl
  | case4 a b c rest ih =>
    rw [base64Encode, sextets]
    simp only [List.map_cons, ih]

theorem sextets_lt (bs : GoString) : ∀ v ∈ sextets bs, v < 64 := by
  induction bs using sextets.induct with
  | case1 => simp [sextets]
  | case2 a =>
    intro v hv
    simp only [sextets, List.mem_cons, List.mem_singleton, List.not_mem_nil, or_false] at hv
    omega
  | case3 a b =>
    intro v hv
    simp only [sextets, List.mem_cons, List.mem_singleton, List.not_mem_nil, or_false] at hv
    omega
  | case4 a b c rest ih =>
    intro v hv
    simp only [sextets, List.mem_cons] at hv
    rcases hv with h | h | h | h | h
    · omega
    · omega
    · omega
    · omega
    · exact ih v h

theorem filter_map_encodeChar (vs : List Nat) (h : ∀ v ∈ vs, v < 64) :
    (vs.map encodeChar).filter (fun c => !(c.val = 10 || c.val = 13)) = vs.map encodeChar := by
  rw [List.filter_eq_self]
  intro c hc
  obtain ⟨v, hv, rfl⟩ := List.mem_map.1 hc
  exact encodeChar_plain v (h v hv)

theorem decodeChars_map_encodeChar (vs : List Nat) (h : ∀ v ∈ vs, v < 64) :
    decodeChars (vs.map encodeChar) = .ok vs := by
  induction vs with
  | nil => rfl
  | cons v vs ih =>
    have hv : v < 64 := h v (List.mem_cons_self v vs)
    have hne : ¬ (v = 0xff) := by omega
    simp only [List.map_cons, decodeChars, decodeMap_encodeChar v hv, hne, if_false,
      ih (fun w hw => h w (List.mem_cons_of_mem v hw))]

theorem byte_ofNat_eq (a : Byte) (n : Nat) (h : n % 256 = a.val) : (Fin.ofNat n : Byte) = a := by
  apply Fin.ext
  exact h

theorem decodeQuanta_sextets (bs : GoString) : decodeQuanta (sextets bs) = .ok bs := by
  induction bs using sextets.induct with
  | case1 => rfl
  | case2 a =>
    have ha := a.isLt
    simp only [sextets, decodeQuanta]
    rw [byte_ofNat_eq a _ (by omega)]
  | case3 a b =>
    have ha := a.isLt
    have hb := b.isLt
    simp only [sextets, decodeQuanta]
    rw [byte_ofNat_eq a _ (by omega), byte_ofNat_eq b _ (by omega)]
  | case4 a b c rest ih =>
    have ha := a.isLt
    have hb := b.isLt
    have hc := c.isLt
    simp only [sextets, decodeQuanta, ih]
    rw [byte_ofNat_eq a _ (by omega), byte_ofNat_eq b _ (by omega), byte_ofNat_eq c _ (by omega)]

/-- Decoding an encoded byte string gives the bytes back. -/
theorem base64Decode_base64Encode (bs : GoString) : base64Decode (base64Encode bs) = .ok bs := by
  unfold base64Decode
  rw [base64Encode_eq_map, filter_map_encodeChar _ (sextets_lt bs),
    decodeChars_map_encodeChar _ (sextets_lt bs)]
  exact decodeQuanta_sextets bs

theorem isTokenChar_base64Encode (bs : GoString) :
    ∀ c ∈ base64Encode bs, isTokenChar c = true := by
  intro c hc
  rw [base64Encode_eq_map] at hc
  obtain ⟨v, hv, rfl⟩ := List.mem_map.1 hc
  exact isTokenChar_encodeChar v (sextets_lt bs v hv)

/-! ## The claims on the token -/

theorem tokenRoundTrip_eq (q : LogQuery) (hau : querySeparator ∉ q.AuthorRegexp)
    (href : q.All = true ∨ querySeparator ∉ q.Ref) : tokenRoundTrip q = .ok q.decoded := by
  obtain ⟨text, h1, h2⟩ := import_export q hau href
  unfold tokenRoundTrip ExportLogQueryFilename ImportLogQueryFilename
  simp only [h1, base64Decode_base64Encode, h2]

/-- C1 as stated fails: the query with `All` set and the reference `main` has no newline
anywhere and no times, yet no decoding of its token returns the reference `main`. -/
theorem C1_counterexample :
    ¬ ∃ r, tokenRoundTrip { LogQuery.zero with All := true, Ref := utf8 "main" } = .ok r ∧
      r.Ref = utf8 "main" := by
  rintro ⟨r, h1, h2⟩
  have h : tokenRoundTrip { LogQuery.zero with All := true, Ref := utf8 "main" } =
      .ok { LogQuery.zero with All := true } := by decide
  rw [h] at h1
  cases h1
  revert h2
  decide

/-- C1, amended: for every query whose author pattern and reference contain no newline
and whose times have whole seconds, decoding its token succeeds; the result has the same
`All` flag and the same author pattern, the same reference when `All` is not set and the
empty reference when `All` is set, a from-time and a to-time that are set exactly when
they are set in the query and then denote the same instant. -/
theorem C1_token_round_trip (q : LogQuery) (hau : querySeparator ∉ q.AuthorRegexp)
    (href : querySeparator ∉ q.Ref)
    (hft : ∀ t, q.FromTime = some t → t.nsec = 0)
    (htt : ∀ t, q.ToTime = some t → t.nsec = 0) :
    ∃ r, tokenRoundTrip q = .ok r ∧ r.All = q.All ∧ r.AuthorRegexp = q.AuthorRegexp ∧
      (q.All = false → r.Ref = q.Ref) ∧ (q.All = true → r.Ref = []) ∧
      sameInstant q.FromTime r.FromTime ∧ sameInstant q.ToTime r.ToTime := by
  refine ⟨q.decoded, tokenRoundTrip_eq q hau (Or.inr href), rfl, rfl, ?_, ?_, ?_, ?_⟩
  · intro h; simp [LogQuery.decoded, h]
  · intro h; simp [LogQuery.decoded, h]
  · cases hq : q.FromTime with
    | none => simp [LogQuery.decoded, hq, sameInstant]
    | some t =>
      simp only [LogQuery.decoded, hq, Option.map_some', sameInstant, Time.Equal, Time.decoded,
        timeUnix]
      exact ⟨trivial, hft t hq⟩
  · cases hq : q.ToTime with
    | none => simp [LogQuery.decoded, hq, sameInstant]
    | some t =>
      simp only [LogQuery.decoded, hq, Option.map_some', sameInstant, Time.Equal, Time.decoded,
        timeUnix]
      exact ⟨trivial, htt t hq⟩

theorem C1_token_round_trip_witness :
    ∃ r, tokenRoundTrip
        { AuthorRegexp := utf8 "@example.com$", All := false, Ref := utf8 "main",
          FromTime := some (timeDate 2024 1 1 0 0 0 (by decide)),
          ToTime := some (timeDate 2024 2 1 12 30 0 (by decide)) } = .ok r ∧
      r.All = false ∧ r.AuthorRegexp = utf8 "@example.com$" ∧
      (false = false → r.Ref = utf8 "main") ∧ (false = true → r.Ref = []) ∧
      sameInstant (some (timeDate 2024 1 1 0 0 0 (by decide))) r.FromTime ∧
      sameInstant (some (timeDate 2024 2 1 12 30 0 (by decide))) r.ToTime :=
  C1_token_round_trip
    { AuthorRegexp := utf8 "@example.com$", All := false, Ref := utf8 "main",
      FromTime := some (timeDate 2024 1 1 0 0 0 (by decide)),
      ToTime := some (timeDate 2024 2 1 12 30 0 (by decide)) }
    (by decide) (by decide)
    (by intro t h; cases h; rfl) (by intro t h; cases h; rfl)

/-! ## The claims on rejection -/

/-- C4: when the first newline-separated field of the text is not `Q1`, `ImportLogQuery`
returns the error "Invalid Log Query" and no query. -/
theorem C4_version_marker (text : GoString)
    (h : (stringsSplit text).head? ≠ some version1String) :
    ImportLogQuery text = .error GoError.invalidLogQuery := by
  unfold ImportLogQuery
  cases hs : stringsSplit text with
  | nil => rfl
  | cons v rest =>
    rw [hs] at h
    have hv : v ≠ version1String := by
      intro e
      apply h
      rw [e]
      rfl
    simp only [hv, if_false]

theorem C4_version_marker_witness :
    ((stringsSplit (utf8 "")).head? ≠ some version1String ∧
      ImportLogQuery (utf8 "") = .error GoError.invalidLogQuery) ∧
    ((stringsSplit (utf8 "Q2\nAL")).head? ≠ some version1String ∧
      ImportLogQuery (utf8 "Q2\nAL") = .error GoError.invalidLogQuery) :=
  ⟨⟨by decide, C4_version_marker (utf8 "") (by decide)⟩,
    ⟨by decide, C4_version_marker (utf8 "Q2\nAL") (by decide)⟩⟩

/-- A field after which the loop continues, or at which it stops with an error. -/
theorem loop_cons_cases (q : LogQuery) (f : GoString) (rest : List GoString) :
    (∃ e, importLogVersion1QueryLoop q (f :: rest) = .error e) ∨
      ∃ q2, importLogVersion1QueryLoop q (f :: rest) = importLogVersion1QueryLoop q2 rest := by
  rw [importLogVersion1QueryLoop]
  split
  · exact Or.inl ⟨_, rfl⟩
  · dsimp only
    split
    · exact Or.inr ⟨_, rfl⟩
    · split
      · exact Or.inr ⟨_, rfl⟩
      · split
        · exact Or.inr ⟨_, rfl⟩
        · split
          · split
            · exact Or.inl ⟨_, rfl⟩
            · exact Or.inr ⟨_, rfl⟩
          · split
            · split
              · exact Or.inl ⟨_, rfl⟩
              · exact Or.inr ⟨_, rfl⟩
            · exact Or.inl ⟨_, rfl⟩

/-- A field that stops the loop wherever it stands makes the whole decoding fail. -/
theorem loop_error_of_mem (f : GoString)
    (hf : ∀ q rest, ∃ e, importLogVersion1QueryLoop q (f :: rest) = .error e) :
    ∀ (fields : List GoString), f ∈ fields →
      ∀ q, ∃ e, importLogVersion1QueryLoop q fields = .error e := by
  intro fields
  induction fields with
  | nil => intro h; simp at h
  | cons g rest ih =>
    intro hmem q
    by_cases hg : f = g
    · subst hg
      exact hf q rest
    · have hrest : f ∈ rest := by
        rcases List.mem_cons.1 hmem with h | h
        · exact absurd h hg
        · exact h
      rcases loop_cons_cases q g rest with ⟨e, he⟩ | ⟨q2, hq2⟩
      · exact ⟨e, he⟩
      · rw [hq2]
        exact ih hrest q2

theorem import_error_of_field (text : GoString) (fields : List GoString) (f : GoString)
    (hsplit : stringsSplit text = version1String :: fields) (hmem : f ∈ fields)
    (hf : ∀ q rest, ∃ e, importLogVersion1QueryLoop q (f :: rest) = .error e) :
    ∃ e, ImportLogQuery text = .error e := by
  unfold ImportLogQuery
  rw [hsplit]
  simp only [if_true]
  exact loop_error_of_mem f hf fields hmem LogQuery.zero

theorem loop_short (q : LogQuery) (f : GoString) (rest : List GoString) (h : f.length < 2) :
    importLogVersion1QueryLoop q (f :: rest) = .error (GoError.invalidLogParameter f) := by
  rw [importLogVersion1QueryLoop]
  have h2 : f.length < PrefixLength := h
  simp only [h2, if_true]

theorem loop_unknown (q : LogQuery) (f : GoString) (rest : List GoString)
    (h : ¬ f.length < 2) (hk : f.take 2 ∉ knownTags) :
    importLogVersion1QueryLoop q (f :: rest) = .error (GoError.invalidLogParameterValue f) := by
  rw [importLogVersion1QueryLoop]
  have h2 : ¬ f.length < PrefixLength := h
  have hk2 : List.take PrefixLength f ∉ knownTags := hk
  simp only [knownTags, List.mem_cons, List.mem_singleton, List.not_mem_nil, or_false,
    not_or] at hk2
  obtain ⟨k1, k2, k3, k4, k5⟩ := hk2
  simp only [h2, k1, k2, k3, k4, k5, if_false]

/-- C6: in a text whose version marker is `Q1`, a field after the marker that is shorter
than two bytes (an empty field too), or whose first two bytes are none of `AL`, `ID`,
`AU`, `FT`, `TT`, makes `ImportLogQuery` return an error. -/
theorem C6_tag_validation (text : GoString) (fields : List GoString) (f : GoString)
    (hsplit : stringsSplit text = version1String :: fields) (hmem : f ∈ fields)
    (hbad : f.length < 2 ∨ f.take 2 ∉ knownTags) :
    ∃ e, ImportLogQuery text = .error e := by
  apply import_error_of_field text fields f hsplit hmem
  intro q rest
  by_cases hlen : f.length < 2
  · exact ⟨_, loop_short q f rest hlen⟩
  · rcases hbad with h | h
    · exact absurd h hlen
    · exact ⟨_, loop_unknown q f rest hlen h⟩

theorem C6_tag_validation_witness :
    (stringsSplit (utf8 "Q1\nAL\n") = version1String :: [utf8 "AL", utf8 ""] ∧
      (∃ e, ImportLogQuery (utf8 "Q1\nAL\n") = .error e)) ∧
    (stringsSplit (utf8 "Q1\nXXfoo\nAL") = version1String :: [utf8 "XXfoo", utf8 "AL"] ∧
      (∃ e, ImportLogQuery (utf8 "Q1\nXXfoo\nAL") = .error e)) :=
  ⟨⟨by decide, C6_tag_validation (utf8 "Q1\nAL\n") [utf8 "AL", utf8 ""] (utf8 "")
      (by decide) (by decide) (Or.inl (by decide))⟩,
    ⟨by decide, C6_tag_validation (utf8 "Q1\nXXfoo\nAL") [utf8 "XXfoo", utf8 "AL"] (utf8 "XXfoo")
      (by decide) (by decide) (Or.inr (by decide))⟩⟩

/-! ## What `Sscanf` accepts -/

theorem skipSpace_suffix (s : GoString) : ∀ r, skipSpace s = .ok r → r <:+ s := by
  induction s using skipSpace.induct with
  | case1 =>
    intro r h
    unfold skipSpace at h
    simp only [Except.ok.injEq] at h
    subst h
    exact List.suffix_refl _
  | case2 c rest hc =>
    intro r h
    unfold skipSpace at h
    simp [hc] at h
  | case3 c rest hc hs ih =>
    intro r h
    unfold skipSpace at h
    simp only [hc, if_false, hs, if_true] at h
    exact (ih r h).trans (List.suffix_cons c rest)
  | case4 c hc hs =>
    intro r h
    unfold skipSpace at h
    simp only [hc, if_false, hs, Bool.false_eq_true, Except.ok.injEq] at h
    subst h
    exact List.suffix_refl _
  | case5 c hc hs d rest2 h2 ih =>
    intro r h
    unfold skipSpace at h
    simp only [hc, if_false, hs, Bool.false_eq_true, h2, if_true] at h
    exact (ih r h).trans ((List.suffix_cons d rest2).trans (List.suffix_cons c _))
  | case6 c hc hs d h2 =>
    intro r h
    unfold skipSpace at h
    simp only [hc, if_false, hs, Bool.false_eq_true, h2, Except.ok.injEq] at h
    subst h
    exact List.suffix_refl _
  | case7 c hc hs d h2 e rest3 h3 ih =>
    intro r h
    unfold skipSpace at h
    simp only [hc, if_false, hs, Bool.false_eq_true, h2, h3, if_true] at h
    exact (ih r h).trans ((List.suffix_cons e rest3).trans
      ((List.suffix_cons d _).trans (List.suffix_cons c _)))
  | case8 c hc hs d h2 e rest3 h3 =>
    intro r h
    unfold skipSpace at h
    simp only [hc, if_false, hs, Bool.false_eq_true, h2, h3, Except.ok.injEq] at h
    subst h
    exact List.suffix_refl _

/-- What `scanInt` accepts has a hexadecimal digit. -/
theorem scanInt_ok_has_digit (s : GoString) (v : Int) (h : scanInt s = .ok v) :
    ∃ c ∈ s, isHexDigit c = true := by
  unfold scanInt at h
  cases hs : skipSpace s with
  | error e => simp [hs] at h
  | ok r =>
    have hsuf := skipSpace_suffix s r hs
    rw [hs] at h
    cases r with
    | nil => simp at h
    | cons c rest =>
      simp only at h
      have hsub : ∀ x ∈ (if c.val = 43 ∨ c.val = 45 then rest else c :: rest), x ∈ s := by
        intro x hx
        apply hsuf.subset
        split at hx
        · exact List.mem_cons_of_mem c hx
        · exact hx
      cases ha : (if c.val = 43 ∨ c.val = 45 then rest else c :: rest) with
      | nil => rw [ha] at h; simp at h
      | cons d tl =>
        rw [ha] at h hsub
        simp only at h
        by_cases hd : isHexDigit d = true
        · exact ⟨d, hsub d (List.mem_cons_self d tl), hd⟩
        · simp [hd] at h

/-- What `Sscanf` accepts starts with `0x` and has a hexadecimal digit after it. -/
theorem sscanf0xHex_ok_shape (value : GoString) (v : Int) (h : sscanf0xHex value = .ok v) :
    utf8 "0x" <+: value ∧ ∃ c ∈ value.drop 2, isHexDigit c = true := by
  unfold sscanf0xHex at h
  cases value with
  | nil => simp at h
  | cons c0 rest0 =>
    simp only at h
    by_cases h0 : c0.val = 48
    · simp only [h0, ne_eq, not_true_eq_false, if_false] at h
      cases rest0 with
      | nil => simp at h
      | cons c1 rest =>
        simp only at h
        by_cases h1 : c1.val = 120
        · simp only [h1, ne_eq, not_true_eq_false, if_false] at h
          have e0 : c0 = 48 := Fin.ext h0
          have e1 : c1 = 120 := Fin.ext h1
          subst e0 e1
          refine ⟨⟨rest, ?_⟩, scanInt_ok_has_digit rest v h⟩
          have hx : utf8 "0x" = [(48 : Byte), (120 : Byte)] := by decide
          rw [hx]
          rfl
        · simp [h1] at h
    · simp [h0] at h

/-- A printable ASCII byte that is neither a hexadecimal digit nor a sign stops the scan
of the integer. -/
theorem scanInt_error_of_plain (c : Byte) (rest : GoString) (h1 : 33 ≤ c.val) (h2 : c.val ≤ 126)
    (h3 : isHexDigit c = false) (h4 : c.val ≠ 43) (h5 : c.val ≠ 45) :
    scanInt (c :: rest) = .error GoError.expectedInteger := by
  have hs : isAsciiSpace c = false := by
    simp only [isAsciiSpace, Bool.or_eq_false_iff, decide_eq_false_iff_not]
    omega
  unfold scanInt
  rw [skipSpace_of_plain c rest (by omega) hs (by omega)]
  simp [h3, h4, h5]

/-! ## The claims on time fields, precedence and the token alphabet -/

theorem loop_bad_time (q : LogQuery) (f : GoString) (rest : List GoString)
    (htag : f.take 2 = FromTimePrefix ∨ f.take 2 = ToTimePrefix)
    (hval : ∀ t, parseTime (f.drop 2) ≠ .ok t) :
    ∃ e, importLogVersion1QueryLoop q (f :: rest) = .error e := by
  have hval2 : ∀ t, parseTime (List.drop PrefixLength f) ≠ .ok t := hval
  rw [importLogVersion1QueryLoop]
  split
  · exact ⟨_, rfl⟩
  · dsimp only
    have h1 : FromTimePrefix ≠ AuthorPrefix := by decide
    have h2 : FromTimePrefix ≠ RefPrefix := by decide
    have h3 : FromTimePrefix ≠ AllPrefix := by decide
    have h4 : ToTimePrefix ≠ AuthorPrefix := by decide
    have h5 : ToTimePrefix ≠ RefPrefix := by decide
    have h6 : ToTimePrefix ≠ AllPrefix := by decide
    have h7 : ToTimePrefix ≠ FromTimePrefix := by decide
    rcases htag with ht | ht
    · have ht2 : List.take PrefixLength f = FromTimePrefix := ht
      simp only [ht2, h1, h2, h3, if_false, if_true]
      cases hp : parseTime (List.drop PrefixLength f) with
      | error e => exact ⟨e, rfl⟩
      | ok t => exact absurd hp (hval2 t)
    · have ht2 : List.take PrefixLength f = ToTimePrefix := ht
      simp only [ht2, h4, h5, h6, h7, if_false, if_true]
      cases hp : parseTime (List.drop PrefixLength f) with
      | error e => exact ⟨e, rfl⟩
      | ok t => exact absurd hp (hval2 t)

theorem parseTime_ok_sscanf (value : GoString) (t : Time) (h : parseTime value = .ok t) :
    ∃ v, sscanf0xHex value = .ok v := by
  unfold parseTime at h
  cases hs : sscanf0xHex value with
  | error e => rw [hs] at h; simp at h
  | ok v => exact ⟨v, rfl⟩

/-- C5 as stated fails: the value `0x-1` is not `0x` followed by hexadecimal digits only,
it is what `formatTime` writes for the second before the epoch, and `ImportLogQuery`
accepts the field `FT0x-1` and returns that time. -/
theorem C5_counterexample :
    stringsSplit (utf8 "Q1\nFT0x-1") = [version1String, FromTimePrefix ++ utf8 "0x-1"] ∧
      isExactHexShape (utf8 "0x-1") = false ∧
      formatTime (timeUnix (-1) (by decide) (by decide)) = utf8 "0x-1" ∧
      ImportLogQuery (utf8 "Q1\nFT0x-1") =
        .ok { LogQuery.zero with FromTime := some (timeUnix (-1) (by decide) (by decide)) } := by
  decide

/-- The bytes after the digits are not looked at: the field `FT0x1fzz` is accepted as the
time 31. -/
theorem import_accepts_trailing_bytes :
    ImportLogQuery (utf8 "Q1\nFT0x1fzz") =
      .ok { LogQuery.zero with FromTime := some (timeUnix 31 (by decide) (by decide)) } := by
  decide

/-- C5, amended: in a text whose version marker is `Q1`, an `FT` or `TT` field makes
`ImportLogQuery` return an error when its value does not begin with `0x`, or has no
hexadecimal digit after the `0x`, or continues after the `0x` with a printable ASCII
character that is neither a hexadecimal digit nor a sign. -/
theorem C5_time_shape (text : GoString) (fields : List GoString) (f : GoString)
    (hsplit : stringsSplit text = version1String :: fields) (hmem : f ∈ fields)
    (htag : f.take 2 = FromTimePrefix ∨ f.take 2 = ToTimePrefix)
    (hbad : ¬ utf8 "0x" <+: f.drop 2 ∨ (∀ c ∈ f.drop 4, isHexDigit c = false) ∨
      ∃ c, (f.drop 4).head? = some c ∧ 33 ≤ c.val ∧ c.val ≤ 126 ∧ isHexDigit c = false ∧
        c.val ≠ 43 ∧ c.val ≠ 45) :
    ∃ e, ImportLogQuery text = .error e := by
  apply import_error_of_field text fields f hsplit hmem
  intro q rest
  apply loop_bad_time q f rest htag
  intro t ht
  obtain ⟨v, hv⟩ := parseTime_ok_sscanf _ t ht
  obtain ⟨hpre, c, hc, hhex⟩ := sscanf0xHex_ok_shape _ v hv
  have hdd : List.drop 2 (List.drop 2 f) = List.drop 4 f := by
    rw [List.drop_drop]
  rw [hdd] at hc
  rcases hbad with h | h | ⟨c2, hhead, b1, b2, b3, b4, b5⟩
  · exact h hpre
  · rw [h c hc] at hhex
    exact Bool.false_ne_true hhex
  · obtain ⟨tl, htl⟩ := hpre
    have hx : utf8 "0x" = [(48 : Byte), (120 : Byte)] := by decide
    rw [hx] at htl
    have h4 : List.drop 4 f = tl := by
      rw [← hdd, ← htl]
      rfl
    rw [h4] at hhead
    cases tl with
    | nil => simp at hhead
    | cons d tl2 =>
      simp only [List.head?_cons, Option.some.injEq] at hhead
      subst hhead
      rw [← htl] at hv
      have hs : sscanf0xHex ([48, 120] ++ d :: tl2) = scanInt (d :: tl2) := rfl
      rw [hs, scanInt_error_of_plain d tl2 b1 b2 b3 b4 b5] at hv
      cases hv

set_option maxRecDepth 100000 in
theorem C5_time_shape_witness :
    (stringsSplit (utf8 "Q1\nAL\nFT1704067200") =
        version1String :: [utf8 "AL", utf8 "FT1704067200"] ∧
      ∃ e, ImportLogQuery (utf8 "Q1\nAL\nFT1704067200") = .error e) ∧
    (stringsSplit (utf8 "Q1\nTT0x") = version1String :: [utf8 "TT0x"] ∧
      ∃ e, ImportLogQuery (utf8 "Q1\nTT0x") = .error e) ∧
    (stringsSplit (utf8 "Q1\nTT0xg1") = version1String :: [utf8 "TT0xg1"] ∧
      ∃ e, ImportLogQuery (utf8 "Q1\nTT0xg1") = .error e) :=
  ⟨⟨by decide, C5_time_shape (utf8 "Q1\nAL\nFT1704067200") [utf8 "AL", utf8 "FT1704067200"]
      (utf8 "FT1704067200") (by decide) (by decide) (Or.inl (by decide))
      (Or.inl (by decide))⟩,
    ⟨by decide, C5_time_shape (utf8 "Q1\nTT0x") [utf8 "TT0x"] (utf8 "TT0x") (by decide)
      (by decide) (Or.inr (by decide)) (Or.inr (Or.inl (by decide)))⟩,
    ⟨by decide, C5_time_shape (utf8 "Q1\nTT0xg1") [utf8 "TT0xg1"] (utf8 "TT0xg1") (by decide)
      (by decide) (Or.inr (by decide))
      (Or.inr (Or.inr ⟨103, by decide, by decide, by decide, by decide, by decide, by decide⟩))⟩⟩

/-- C9 as stated fails: with `All` set, the reference `x` and the author pattern
`a`, newline, `IDy`, the encoded text has the field `IDy`, and decoding it returns the
reference `y`, not the empty one. -/
theorem C9_counterexample :
    ExportLogQuery
        { AuthorRegexp := utf8 "a\nIDy", All := true, Ref := utf8 "x",
          FromTime := none, ToTime := none } = .ok (utf8 "Q1\nAL\nAUa\nIDy") ∧
      utf8 "IDy" ∈ stringsSplit (utf8 "Q1\nAL\nAUa\nIDy") ∧
      ImportLogQuery (utf8 "Q1\nAL\nAUa\nIDy") =
        .ok { AuthorRegexp := utf8 "a", All := true, Ref := utf8 "y",
              FromTime := none, ToTime := none } := by
  decide

theorem take_two_tag (tag value : GoString) (h : tag.length = 2) :
    List.take 2 (tag ++ value) = tag := take_tag tag value h

/-- C9, amended: `ExportLogQuery` returns no error for any query; and for every query
with `All` set whose author pattern has no newline, whatever its reference, the fields
of the encoded text include `AL` and none of them has the tag `ID`, and decoding the text
gives a query with `All` set and the empty reference. -/
theorem C9_all_precedence (q : LogQuery) :
    (∃ text, ExportLogQuery q = .ok text) ∧
    (q.All = true → querySeparator ∉ q.AuthorRegexp →
      ∃ text, ExportLogQuery q = .ok text ∧ AllPrefix ∈ stringsSplit text ∧
        (∀ f ∈ stringsSplit text, f.take 2 ≠ RefPrefix) ∧
        ∃ r, ImportLogQuery text = .ok r ∧ r.All = true ∧ r.Ref = []) := by
  refine ⟨⟨_, export_eq q⟩, ?_⟩
  intro hall hau
  obtain ⟨text, h1, h2⟩ := import_export q hau (Or.inl hall)
  refine ⟨text, h1, ?_, ?_, q.decoded, h2, hall, ?_⟩
  · rw [export_eq q] at h1
    cases h1
    rw [split_export q hau (Or.inl hall)]
    unfold exportedFields
    simp [hall]
  · rw [export_eq q] at h1
    cases h1
    rw [split_export q hau (Or.inl hall)]
    intro f hf
    have hAU : AuthorPrefix.length = 2 := by decide
    have hFT : FromTimePrefix.length = 2 := by decide
    have hTT : ToTimePrefix.length = 2 := by decide
    unfold exportedFields at hf
    simp only [hall, if_true, List.mem_cons, List.mem_append, List.mem_singleton,
      List.not_mem_nil, or_false] at hf
    rcases hf with hf | ((hf | hf) | hf) | hf
    · rw [hf]; decide
    · rw [hf]; decide
    · split at hf
      · rw [List.mem_singleton.1 hf, take_two_tag _ _ hAU]; decide
      · simp at hf
    · cases hq : q.FromTime with
      | none => rw [hq] at hf; simp at hf
      | some t =>
        rw [hq] at hf
        rw [List.mem_singleton.1 hf, take_two_tag _ _ hFT]; decide
    · cases hq : q.ToTime with
      | none => rw [hq] at hf; simp at hf
      | some t =>
        rw [hq] at hf
        rw [List.mem_singleton.1 hf, take_two_tag _ _ hTT]; decide
  · simp [LogQuery.decoded, hall]

theorem C9_all_precedence_witness :
    ∃ text, ExportLogQuery
        { AuthorRegexp := utf8 "bob", All := true, Ref := utf8 "main",
          FromTime := none, ToTime := none } = .ok text ∧ AllPrefix ∈ stringsSplit text ∧
      (∀ f ∈ stringsSplit text, f.take 2 ≠ RefPrefix) ∧
      ∃ r, ImportLogQuery text = .ok r ∧ r.All = true ∧ r.Ref = [] :=
  (C9_all_precedence
    { AuthorRegexp := utf8 "bob", All := true, Ref := utf8 "main",
      FromTime := none, ToTime := none }).2 (by decide) (by decide)

theorem stringsJoin_cons_ne_nil (fields : List GoString) :
    stringsJoin (version1String :: fields) ≠ [] := by
  have hv : version1String = (81 : Byte) :: [(49 : Byte)] := by decide
  unfold stringsJoin
  cases fields with
  | nil => rw [hv]; simp [List.intercalate]
  | cons f fs => rw [hv]; simp [List.intercalate]

theorem base64Encode_ne_nil (bs : GoString) (h : bs ≠ []) : base64Encode bs ≠ [] := by
  intro he
  have hd := base64Decode_base64Encode bs
  rw [he] at hd
  have : base64Decode [] = .ok [] := rfl
  rw [this] at hd
  cases hd
  exact h rfl

set_option maxRecDepth 100000 in
theorem isTokenChar_props : ∀ c : Byte, isTokenChar c = true →
    c.val ≠ 61 ∧ c.val ≠ 47 ∧ c.val ≠ 43 := by
  decide

/-- C10: for every query the token `ExportLogQueryFilename` returns is not empty; its
characters are all among `A-Z`, `a-z`, `0-9`, `-` and `_`, so none is `=`, `/` or `+`;
it is the unpadded URL-safe base64 encoding of the text `ExportLogQuery` returns, and
decoding it as base64 gives exactly that text. -/
theorem C10_token_alphabet (q : LogQuery) :
    ∃ token text, ExportLogQueryFilename q = .ok token ∧ ExportLogQuery q = .ok text ∧
      token ≠ [] ∧ (∀ c ∈ token, isTokenChar c = true) ∧
      (∀ c ∈ token, c.val ≠ 61 ∧ c.val ≠ 47 ∧ c.val ≠ 43) ∧
      token = base64Encode text ∧ base64Decode token = .ok text := by
  refine ⟨base64Encode (stringsJoin (version1String :: exportedFields q)), _, ?_, export_eq q,
    ?_, ?_, ?_, rfl, ?_⟩
  · unfold ExportLogQueryFilename
    rw [export_eq q]
  · exact base64Encode_ne_nil _ (stringsJoin_cons_ne_nil _)
  · exact isTokenChar_base64Encode _
  · intro c hc
    exact isTokenChar_props c (isTokenChar_base64Encode _ c hc)
  · exact base64Decode_base64Encode _

/-! ## The diff: the loops of `commitChangedFiles` -/

/-- The line `comparer` appends for a name is the line of its classification. -/
theorem comparer_eq (old new : FileMap) (st : DiffState) (name : GoString) :
    comparer old new st name =
      if st.fileDone.contains name then st
      else
        { result := st.result ++
            (classify name (old.get name) (new.get name)).toList.map FileChange.line
          fileDone := name :: st.fileDone } := by
  unfold comparer
  by_cases hd : st.fileDone.contains name = true
  · simp only [hd, Bool.not_true, Bool.false_eq_true, if_false, if_true]
  · simp only [hd, Bool.not_eq_true, Bool.not_false, if_true, if_false, Bool.false_eq_true]
    cases ho : old.get name with
    | none =>
      cases hn : new.get name with
      | none => simp [classify]
      | some n => simp [classify, FileChange.line]
    | some o =>
      cases hn : new.get name with
      | none => simp [classify, FileChange.line]
      | some n =>
        by_cases he : entriesEqual o n
        · have he2 := he
          obtain ⟨e1, e2, e3⟩ := he2
          simp [classify, he, e1, e2, e3]
        · have hb : (decide (o.Mode = n.Mode) && decide (o.Size = n.Size) &&
              decide (o.Hash = n.Hash)) = false := by
            unfold entriesEqual at he
            by_cases e1 : o.Mode = n.Mode
            · by_cases e2 : o.Size = n.Size
              · by_cases e3 : o.Hash = n.Hash
                · exact absurd ⟨e1, e2, e3⟩ he
                · simp [e3]
              · simp [e2]
            · simp [e1]
          simp [classify, he, hb, FileChange.line]

/-- The line of the classification of a name, if it has one. -/
theorem foldl_comparer (old new : FileMap) (names : List GoString) : ∀ st : DiffState,
    names.foldl (comparer old new) st =
      { result := st.result ++ (firstVisits st.fileDone names).filterMap fun name =>
          (classify name (old.get name) (new.get name)).map FileChange.line
        fileDone := (firstVisits st.fileDone names).reverse ++ st.fileDone } := by
  induction names with
  | nil => intro st; simp [firstVisits]
  | cons name names ih =>
    intro st
    rw [List.foldl_cons, comparer_eq]
    by_cases hd : st.fileDone.contains name = true
    · simp only [hd, if_true]
      rw [ih st]
      simp only [firstVisits, hd, if_true]
    · simp only [hd, if_false, Bool.false_eq_true]
      rw [ih]
      simp only [firstVisits, hd, if_false, Bool.false_eq_true, List.filterMap_cons,
        List.reverse_cons, List.append_assoc, List.singleton_append]
      cases hc : classify name (old.get name) (new.get name) with
      | none => simp
      | some c => simp

theorem firstVisits_append (a b : List GoString) : ∀ done : List GoString,
    firstVisits done (a ++ b) =
      firstVisits done a ++ firstVisits ((firstVisits done a).reverse ++ done) b := by
  induction a with
  | nil => intro done; simp [firstVisits]
  | cons x a ih =>
    intro done
    have hcons : firstVisits done (x :: a ++ b) =
        if done.contains x then firstVisits done (a ++ b)
        else x :: firstVisits (x :: done) (a ++ b) := rfl
    have hcons2 : firstVisits done (x :: a) =
        if done.contains x then firstVisits done a
        else x :: firstVisits (x :: done) a := rfl
    rw [hcons, hcons2]
    by_cases hd : done.contains x = true
    · simp only [hd, if_true]
      exact ih done
    · simp only [hd, if_false, Bool.false_eq_true]
      rw [ih (x :: done)]
      simp

/-- The lines `commitChangedFiles` returns are the lines of `changes`, in order. -/
theorem changedFiles_eq (old new : FileMap) :
    changedFiles old new = (changes old new).map FileChange.line := by
  unfold changedFiles changes
  simp only [foldl_comparer, firstVisits_append, List.nil_append, List.append_nil,
    List.filterMap_append, List.map_append, List.map_filterMap]

theorem mem_firstVisits (names : List GoString) : ∀ (done : List GoString) (x : GoString),
    x ∈ firstVisits done names ↔ x ∈ names ∧ x ∉ done := by
  induction names with
  | nil => intro done x; simp [firstVisits]
  | cons n names ih =>
    intro done x
    by_cases hd : done.contains n = true
    · have hn : n ∈ done := by simpa using hd
      simp only [firstVisits, hd, if_true, ih, List.mem_cons]
      constructor
      · rintro ⟨h1, h2⟩
        exact ⟨Or.inr h1, h2⟩
      · rintro ⟨h1 | h1, h2⟩
        · subst h1; exact absurd hn h2
        · exact ⟨h1, h2⟩
    · have hn : n ∉ done := by simpa using hd
      simp only [firstVisits, hd, if_false, Bool.false_eq_true, List.mem_cons, ih]
      constructor
      · rintro (h | ⟨h1, h2⟩)
        · subst h; exact ⟨Or.inl rfl, hn⟩
        · exact ⟨Or.inr h1, fun h => h2 (Or.inr h)⟩
      · rintro ⟨h1 | h1, h2⟩
        · exact Or.inl h1
        · by_cases hx : x = n
          · exact Or.inl hx
          · refine Or.inr ⟨h1, ?_⟩
            rintro (h | h)
            · exact hx h
            · exact h2 h

theorem nodup_firstVisits (names : List GoString) : ∀ done : List GoString,
    (firstVisits done names).Nodup := by
  induction names with
  | nil => intro done; simp [firstVisits]
  | cons n names ih =>
    intro done
    by_cases hd : done.contains n = true
    · simp only [firstVisits, hd, if_true]
      exact ih done
    · simp only [firstVisits, hd, if_false, Bool.false_eq_true, List.nodup_cons]
      refine ⟨?_, ih _⟩
      rw [mem_firstVisits]
      rintro ⟨_, h2⟩
      exact h2 (List.mem_cons_self n done)

theorem classify_path (name : GoString) (o n : Option File) (c : FileChange)
    (h : classify name o n = some c) : c.path = name := by
  unfold classify at h
  split at h
  · split at h
    · cases h
    · cases h; rfl
  · cases h; rfl
  · cases h; rfl
  · cases h

/-! ## The order of Go strings -/

theorem strLe_refl (a : GoString) : strLe a a = true := by
  induction a with
  | nil => rfl
  | cons x xs ih => simp [strLe, ih]

theorem strLe_total (a : GoString) : ∀ b, strLe a b = true ∨ strLe b a = true := by
  induction a with
  | nil => intro b; exact Or.inl rfl
  | cons x xs ih =>
    intro b
    cases b with
    | nil => exact Or.inr rfl
    | cons y ys =>
      simp only [strLe]
      by_cases h1 : x.val < y.val
      · simp [h1]
      · by_cases h2 : y.val < x.val
        · simp [h2]
        · simp only [h1, h2, if_false]
          exact ih ys

theorem strLe_trans (a : GoString) : ∀ b c, strLe a b = true → strLe b c = true →
    strLe a c = true := by
  induction a with
  | nil => intro b c _ _; rfl
  | cons x xs ih =>
    intro b c hab hbc
    cases b with
    | nil => simp [strLe] at hab
    | cons y ys =>
      cases c with
      | nil => simp [strLe] at hbc
      | cons z zs =>
        simp only [strLe] at hab hbc ⊢
        by_cases h1 : x.val < y.val
        · by_cases h3 : y.val < z.val
          · have : x.val < z.val := by omega
            simp [this]
          · by_cases h4 : z.val < y.val
            · simp [h3, h4] at hbc
            · have : x.val < z.val := by omega
              simp [this]
        · by_cases h2 : y.val < x.val
          · simp [h1, h2] at hab
          · simp only [h1, h2, if_false] at hab
            by_cases h3 : y.val < z.val
            · have : x.val < z.val := by omega
              simp [this]
            · by_cases h4 : z.val < y.val
              · simp [h3, h4] at hbc
              · simp only [h3, h4, if_false] at hbc
                have e1 : ¬ x.val < z.val := by omega
                have e2 : ¬ z.val < x.val := by omega
                simp only [e1, e2, if_false]
                exact ih ys zs hab hbc

theorem strLe_antisymm (a : GoString) : ∀ b, strLe a b = true → strLe b a = true → a = b := by
  induction a with
  | nil =>
    intro b _ hba
    cases b with
    | nil => rfl
    | cons y ys => simp [strLe] at hba
  | cons x xs ih =>
    intro b hab hba
    cases b with
    | nil => simp [strLe] at hab
    | cons y ys =>
      simp only [strLe] at hab hba
      by_cases h1 : x.val < y.val
      · have h2 : ¬ y.val < x.val := by omega
        simp [h1, h2] at hba
      · by_cases h2 : y.val < x.val
        · simp [h1, h2] at hab
        · simp only [h1, h2, if_false] at hab hba
          have e : x = y := Fin.ext (by omega)
          rw [e, ih ys hab hba]

instance strLe_isTotal : IsTotal GoString (fun a b => strLe a b = true) :=
  ⟨fun a b => strLe_total a b⟩

instance strLe_isTrans : IsTrans GoString (fun a b => strLe a b = true) :=
  ⟨fun a b c => strLe_trans a b c⟩

instance strLe_isAntisymm : IsAntisymm GoString (fun a b => strLe a b = true) :=
  ⟨fun a b => strLe_antisymm a b⟩

instance lineLe_isTotal : IsTotal FileChange (fun a b => strLe a.line b.line = true) :=
  ⟨fun a b => strLe_total a.line b.line⟩

instance lineLe_isTrans : IsTrans FileChange (fun a b => strLe a.line b.line = true) :=
  ⟨fun a b c => strLe_trans a.line b.line c.line⟩

/-- When the first path has no space or control byte, the order of two lines that start
with a path and a space is the order of the paths. -/
theorem strLe_path_of_line (p1 : GoString) : ∀ (p2 r1 r2 : GoString),
    (∀ b ∈ p1, 32 < b.val) → strLe (p1 ++ (32 : Byte) :: r1) (p2 ++ (32 : Byte) :: r2) = true →
    strLe p1 p2 = true := by
  induction p1 with
  | nil => intro p2 r1 r2 _ _; rfl
  | cons x xs ih =>
    intro p2 r1 r2 hb h
    have hx : 32 < x.val := hb x (List.mem_cons_self x xs)
    cases p2 with
    | nil =>
      simp only [List.cons_append, List.nil_append, strLe] at h
      have e32 : (32 : Byte).val = 32 := rfl
      rw [e32] at h
      have h1 : ¬ x.val < 32 := by omega
      simp [h1, hx] at h
    | cons y ys =>
      simp only [List.cons_append, strLe] at h ⊢
      by_cases h1 : x.val < y.val
      · simp [h1]
      · by_cases h2 : y.val < x.val
        · simp [h1, h2] at h
        · simp only [h1, h2, if_false] at h ⊢
          exact ih ys r1 r2 (fun b hb2 => hb b (List.mem_cons_of_mem x hb2)) h

theorem line_shape (c : FileChange) : ∃ r, c.line = c.path ++ (32 : Byte) :: r := by
  have h1 : utf8 " create " = (32 : Byte) :: utf8 "create " := by decide
  have h2 : utf8 " delete " = (32 : Byte) :: utf8 "delete " := by decide
  have h3 : utf8 " change " = (32 : Byte) :: utf8 "change " := by decide
  cases c with
  | Create p n =>
    refine ⟨utf8 "create " ++ formatFile (some n), ?_⟩
    simp only [FileChange.line, FileChange.path, h1, List.append_assoc, List.cons_append]
  | Delete p o =>
    refine ⟨utf8 "delete " ++ formatFile (some o), ?_⟩
    simp only [FileChange.line, FileChange.path, h2, List.append_assoc, List.cons_append]
  | Modify p o n =>
    refine ⟨utf8 "change " ++ (formatFile (some o) ++ (utf8 " " ++ formatFile (some n))), ?_⟩
    simp only [FileChange.line, FileChange.path, h3, List.append_assoc, List.cons_append]

/-! ## The claims on the diff -/

theorem get_ne_none_iff (m : FileMap) (p : GoString) : m.get p ≠ none ↔ p ∈ m.names := by
  induction m with
  | nil => simp [FileMap.get, FileMap.names, List.lookup]
  | cons e m ih =>
    obtain ⟨k, f⟩ := e
    unfold FileMap.get FileMap.names at ih ⊢
    by_cases hk : p = k
    · subst hk
      simp [List.lookup]
    · have hb : (p == k) = false := by simpa using hk
      simp only [List.lookup, hb, List.map_cons, List.mem_cons, hk, false_or]
      exact ih

theorem mem_changes (old new : FileMap) (c : FileChange) :
    c ∈ changes old new ↔ classify c.path (old.get c.path) (new.get c.path) = some c := by
  unfold changes
  rw [List.mem_filterMap]
  constructor
  · rintro ⟨name, _, h⟩
    have hp := classify_path name _ _ c h
    rw [hp]
    exact h
  · intro h
    refine ⟨c.path, ?_, h⟩
    rw [mem_firstVisits]
    refine ⟨?_, by simp⟩
    rw [List.mem_append, ← get_ne_none_iff, ← get_ne_none_iff]
    by_contra hn
    rw [not_or, not_not, not_not] at hn
    rw [hn.1, hn.2] at h
    simp [classify] at h

theorem filterMap_map_sublist {α β : Type} (f : α → Option β) (g : β → α)
    (h : ∀ a b, f a = some b → g b = a) : ∀ l : List α, ((l.filterMap f).map g).Sublist l := by
  intro l
  induction l with
  | nil => simp
  | cons a l ih =>
    cases hf : f a with
    | none =>
      rw [List.filterMap_cons_none hf]
      exact ih.cons a
    | some b =>
      rw [List.filterMap_cons_some hf, List.map_cons, h a b hf]
      exact ih.cons₂ a

theorem nodup_changes_path (old new : FileMap) :
    ((changes old new).map FileChange.path).Nodup := by
  unfold changes
  exact (filterMap_map_sublist _ FileChange.path
    (fun name c h => classify_path name _ _ c h) _).nodup (nodup_firstVisits _ _)

theorem sortedChanges_perm (old new : FileMap) :
    (sortedChanges old new).Perm (changes old new) :=
  List.perm_insertionSort _ _

/-- The sorted lines are the lines of the changes in their sorted order. -/
theorem sortedChangedFiles_eq (old new : FileMap) :
    sortedChangedFiles old new = (sortedChanges old new).map FileChange.line := by
  unfold sortedChangedFiles sortedChanges sortStrings
  rw [changedFiles_eq]
  symm
  exact List.map_insertionSort (fun a b => strLe a.line b.line = true)
    (fun a b => strLe a b = true) FileChange.line _ (fun a _ b _ => Iff.rfl)

theorem strLe_cons_lt (x y : Byte) (xs ys : GoString) (h : x.val < y.val) :
    strLe (x :: xs) (y :: ys) = true := by
  simp [strLe, h]

/-- The changes of a one-entry old snapshot and a two-entry new snapshot that shares the
first path. -/
theorem changes_one_two (a b : GoString) (hab : b ≠ a) (e1 e2 e3 : File)
    (hne : ¬ entriesEqual e1 e2) :
    changes [(a, e1)] [(a, e2), (b, e3)] =
      [FileChange.Modify a e1 e2, FileChange.Create b e3] := by
  have hb : (b == a) = false := by simpa using hab
  simp [changes, firstVisits, FileMap.names, FileMap.get, List.lookup, classify, hne, hab, hb]

/-- Example 3 of the specification, for any three hashes. -/
theorem example3_changes : ∀ H1 H2 H3 : List Byte,
    sortedChanges
      [(utf8 "a.txt", { Name := utf8 "a.txt", Mode := 0o100644, Hash := H1, Size := 10 })]
      [(utf8 "a.txt", { Name := utf8 "a.txt", Mode := 0o100644, Hash := H2, Size := 12 }),
       (utf8 "b.txt", { Name := utf8 "b.txt", Mode := 0o100644, Hash := H3, Size := 3 })] =
    [FileChange.Modify (utf8 "a.txt")
        { Name := utf8 "a.txt", Mode := 0o100644, Hash := H1, Size := 10 }
        { Name := utf8 "a.txt", Mode := 0o100644, Hash := H2, Size := 12 },
      FileChange.Create (utf8 "b.txt")
        { Name := utf8 "b.txt", Mode := 0o100644, Hash := H3, Size := 3 }] := by
  intro H1 H2 H3
  have hne2 : utf8 "b.txt" ≠ utf8 "a.txt" := by decide
  have ha : utf8 "a.txt" = (97 : Byte) :: utf8 ".txt" := by decide
  have hb : utf8 "b.txt" = (98 : Byte) :: utf8 ".txt" := by decide
  have hsz : ¬ entriesEqual
      { Name := utf8 "a.txt", Mode := 0o100644, Hash := H1, Size := 10 }
      { Name := utf8 "a.txt", Mode := 0o100644, Hash := H2, Size := 12 } := by
    intro h
    have h2 : (10 : Int) = 12 := h.2.1
    exact absurd h2 (by decide)
  unfold sortedChanges
  rw [changes_one_two _ _ hne2 _ _ _ hsz]
  have hle : strLe
      (FileChange.Modify (utf8 "a.txt")
        { Name := utf8 "a.txt", Mode := 0o100644, Hash := H1, Size := 10 }
        { Name := utf8 "a.txt", Mode := 0o100644, Hash := H2, Size := 12 }).line
      (FileChange.Create (utf8 "b.txt")
        { Name := utf8 "b.txt", Mode := 0o100644, Hash := H3, Size := 3 }).line = true := by
    unfold FileChange.line
    rw [ha, hb]
    exact strLe_cons_lt _ _ _ _ (by decide)
  simp only [List.insertionSort, List.orderedInsert, hle, if_true]

/-- C3: the change list of `commitChangedFiles` is the list of the lines of `changes`;
a change is in it exactly when it is the classification of its path from the entries of
the path in the old and in the new snapshot; so a path has a change exactly when it is
in one of the snapshots and not in both with equal mode, size and hash; entries that
differ in mode, hash or size give a Modify, a path only in the old snapshot a Delete, a
path only in the new one a Create; and the example of the specification gives a Modify
of `a.txt` and a Create of `b.txt`, in this order, whatever the three hashes. -/
theorem C3_classification (old new : FileMap) :
    changedFiles old new = (changes old new).map FileChange.line ∧
    (∀ c, c ∈ changes old new ↔ classify c.path (old.get c.path) (new.get c.path) = some c) ∧
    (∀ p, (∃ c ∈ changes old new, c.path = p) ↔
      ((old.get p ≠ none ∨ new.get p ≠ none) ∧
        ¬ ∃ o n, old.get p = some o ∧ new.get p = some n ∧ entriesEqual o n)) ∧
    (∀ p o n, old.get p = some o → new.get p = some n →
      (o.Mode ≠ n.Mode ∨ o.Hash ≠ n.Hash ∨ o.Size ≠ n.Size) →
      FileChange.Modify p o n ∈ changes old new) ∧
    (∀ p o, old.get p = some o → new.get p = none → FileChange.Delete p o ∈ changes old new) ∧
    (∀ p n, old.get p = none → new.get p = some n → FileChange.Create p n ∈ changes old new) ∧
    (∀ H1 H2 H3 : List Byte,
      sortedChanges
        [(utf8 "a.txt", { Name := utf8 "a.txt", Mode := 0o100644, Hash := H1, Size := 10 })]
        [(utf8 "a.txt", { Name := utf8 "a.txt", Mode := 0o100644, Hash := H2, Size := 12 }),
         (utf8 "b.txt", { Name := utf8 "b.txt", Mode := 0o100644, Hash := H3, Size := 3 })] =
      [FileChange.Modify (utf8 "a.txt")
          { Name := utf8 "a.txt", Mode := 0o100644, Hash := H1, Size := 10 }
          { Name := utf8 "a.txt", Mode := 0o100644, Hash := H2, Size := 12 },
        FileChange.Create (utf8 "b.txt")
          { Name := utf8 "b.txt", Mode := 0o100644, Hash := H3, Size := 3 }]) := by
  refine ⟨changedFiles_eq old new, mem_changes old new, ?_, ?_, ?_, ?_, ?_⟩
  · intro p
    constructor
    · rintro ⟨c, hc, rfl⟩
      rw [mem_changes] at hc
      cases ho : old.get c.path with
      | none =>
        cases hn : new.get c.path with
        | none => rw [ho, hn] at hc; simp [classify] at hc
        | some n => simp
      | some o =>
        cases hn : new.get c.path with
        | none => simp
        | some n =>
          rw [ho, hn] at hc
          simp only [classify] at hc
          by_cases he : entriesEqual o n
          · simp [he] at hc
          · simp [he]
    · rintro ⟨hin, hne⟩
      cases ho : old.get p with
      | none =>
        cases hn : new.get p with
        | none => rw [ho, hn] at hin; simp at hin
        | some n =>
          refine ⟨FileChange.Create p n, ?_, rfl⟩
          rw [mem_changes]
          simp [FileChange.path, ho, hn, classify]
      | some o =>
        cases hn : new.get p with
        | none =>
          refine ⟨FileChange.Delete p o, ?_, rfl⟩
          rw [mem_changes]
          simp [FileChange.path, ho, hn, classify]
        | some n =>
          have he : ¬ entriesEqual o n := fun he => hne ⟨o, n, ho, hn, he⟩
          refine ⟨FileChange.Modify p o n, ?_, rfl⟩
          rw [mem_changes]
          simp [FileChange.path, ho, hn, classify, he]
  · intro p o n ho hn hd
    rw [mem_changes]
    have he : ¬ entriesEqual o n := by
      rintro ⟨e1, e2, e3⟩
      rcases hd with h | h | h
      · exact h e1
      · exact h e3
      · exact h e2
    simp [FileChange.path, ho, hn, classify, he]
  · intro p o ho hn
    rw [mem_changes]
    simp [FileChange.path, ho, hn, classify]
  · intro p n ho hn
    rw [mem_changes]
    simp [FileChange.path, ho, hn, classify]
  · exact example3_changes

theorem path_mem_names (old new : FileMap) (c : FileChange) (h : c ∈ changes old new) :
    c.path ∈ old.names ++ new.names := by
  unfold changes at h
  obtain ⟨name, hn, hc⟩ := List.mem_filterMap.1 h
  rw [classify_path name _ _ c hc]
  exact ((mem_firstVisits _ _ _).1 hn).1

set_option maxRecDepth 100000 in
/-- C2 as stated fails: for a root commit with the two files `my` and `my a.txt`, the
sorted lines are the line of `my a.txt` and then the line of `my`, because the lines are
compared after the path too and `a` comes before `c`; the paths in this order are not
ascending. -/
theorem C2_counterexample :
    sortedChangedFiles []
        [(utf8 "my", regularFile (utf8 "my") zeroHash 3),
         (utf8 "my a.txt", regularFile (utf8 "my a.txt") zeroHash 3)] =
      [utf8 "my a.txt create 0100644:0000000000000000000000000000000000000000",
       utf8 "my create 0100644:0000000000000000000000000000000000000000"] ∧
    (sortedChanges []
        [(utf8 "my", regularFile (utf8 "my") zeroHash 3),
         (utf8 "my a.txt", regularFile (utf8 "my a.txt") zeroHash 3)]).map
        FileChange.path = [utf8 "my a.txt", utf8 "my"] ∧
    ¬ List.Sorted (fun a b => strLe a b = true) [utf8 "my a.txt", utf8 "my"] := by
  decide

/-- C2, amended: for any two snapshots the sorted change list is ascending in the
byte-wise order of its lines, which are the lines of the changes; no path has more than
one line; and when no path of the two snapshots has a space or a control character (a
byte up to 0x20), the list is ascending in the byte-wise order of the changed path. -/
theorem C2_sorted_change_list (old new : FileMap) :
    sortedChangedFiles old new = (sortedChanges old new).map FileChange.line ∧
    (sortedChanges old new).Perm (changes old new) ∧
    List.Sorted (fun a b => strLe a b = true) (sortedChangedFiles old new) ∧
    ((sortedChanges old new).map FileChange.path).Nodup ∧
    ((∀ p ∈ old.names ++ new.names, ∀ b ∈ p, 32 < b.val) →
      List.Sorted (fun a b => strLe a b = true)
        ((sortedChanges old new).map FileChange.path)) := by
  have hsorted : List.Sorted (fun a b => strLe a.line b.line = true) (sortedChanges old new) :=
    List.sorted_insertionSort _ _
  refine ⟨sortedChangedFiles_eq old new, sortedChanges_perm old new, ?_, ?_, ?_⟩
  · exact List.sorted_insertionSort _ _
  · exact ((sortedChanges_perm old new).map FileChange.path).nodup_iff.2
      (nodup_changes_path old new)
  · intro hplain
    unfold List.Sorted at hsorted ⊢
    rw [List.pairwise_map]
    refine hsorted.imp_of_mem ?_
    intro a b ha _ hab
    obtain ⟨r1, h1⟩ := line_shape a
    obtain ⟨r2, h2⟩ := line_shape b
    rw [h1, h2] at hab
    have hmem : a ∈ changes old new := (sortedChanges_perm old new).mem_iff.1 ha
    exact strLe_path_of_line a.path b.path r1 r2
      (hplain a.path (path_mem_names old new a hmem)) hab

set_option maxRecDepth 100000 in
theorem C2_sorted_change_list_witness :
    List.Sorted (fun a b => strLe a b = true)
      ((sortedChanges
        [(utf8 "a.txt", regularFile (utf8 "a.txt") zeroHash 10)]
        [(utf8 "b.txt", regularFile (utf8 "b.txt") zeroHash 3),
         (utf8 "a.txt", regularFile (utf8 "a.txt") zeroHash 12)]).map
        FileChange.path) :=
  (C2_sorted_change_list
    [(utf8 "a.txt", regularFile (utf8 "a.txt") zeroHash 10)]
    [(utf8 "b.txt", regularFile (utf8 "b.txt") zeroHash 3),
     (utf8 "a.txt", regularFile (utf8 "a.txt") zeroHash 12)]).2.2.2.2
    (by decide)

/-! ## Exchanging the snapshots -/

theorem entriesEqual_comm (o n : File) : entriesEqual o n ↔ entriesEqual n o := by
  unfold entriesEqual
  constructor
  · rintro ⟨h1, h2, h3⟩
    exact ⟨h1.symm, h2.symm, h3.symm⟩
  · rintro ⟨h1, h2, h3⟩
    exact ⟨h1.symm, h2.symm, h3.symm⟩

theorem swap_swap (c : FileChange) : c.swap.swap = c := by
  cases c <;> rfl

theorem swap_path (c : FileChange) : c.swap.path = c.path := by
  cases c <;> rfl

theorem classify_swap (p : GoString) (o n : Option File) (c : FileChange)
    (h : classify p o n = some c) : classify p n o = some c.swap := by
  cases o with
  | none =>
    cases n with
    | none => simp [classify] at h
    | some e =>
      simp only [classify, Option.some.injEq] at h
      subst h
      rfl
  | some e1 =>
    cases n with
    | none =>
      simp only [classify, Option.some.injEq] at h
      subst h
      rfl
    | some e2 =>
      simp only [classify] at h ⊢
      by_cases he : entriesEqual e1 e2
      · simp [he] at h
      · have he2 : ¬ entriesEqual e2 e1 := fun hh => he ((entriesEqual_comm e1 e2).2 hh)
        simp only [he, if_false, Option.some.injEq] at h
        subst h
        simp [he2, FileChange.swap]

theorem mem_changes_swap (a b : FileMap) (c : FileChange) (h : c ∈ changes a b) :
    c.swap ∈ changes b a := by
  rw [mem_changes] at h ⊢
  rw [swap_path]
  exact classify_swap _ _ _ c h

/-- C11: for any two snapshots A and B, a change is in the diff of A and B exactly when
the change with the sides exchanged is in the diff of B and A: a Create of a path and
entry is there exactly when the Delete of the same path and entry is in the other diff,
and the reverse; a Modify is there exactly when the Modify with the old and new entries
exchanged is in the other diff; and the changed paths of the two diffs are the same. -/
theorem C11_swap_symmetry (a b : FileMap) :
    (∀ c, c ∈ changes a b ↔ c.swap ∈ changes b a) ∧
    (∀ p e, FileChange.Create p e ∈ changes a b ↔ FileChange.Delete p e ∈ changes b a) ∧
    (∀ p e, FileChange.Delete p e ∈ changes a b ↔ FileChange.Create p e ∈ changes b a) ∧
    (∀ p o n, FileChange.Modify p o n ∈ changes a b ↔ FileChange.Modify p n o ∈ changes b a) ∧
    (∀ p, p ∈ (changes a b).map FileChange.path ↔ p ∈ (changes b a).map FileChange.path) := by
  have key : ∀ (x y : FileMap) (c : FileChange), c ∈ changes x y ↔ c.swap ∈ changes y x := by
    intro x y c
    constructor
    · exact mem_changes_swap x y c
    · intro h
      have h2 := mem_changes_swap y x c.swap h
      rw [swap_swap] at h2
      exact h2
  refine ⟨key a b, fun p e => key a b (.Create p e), fun p e => key a b (.Delete p e),
    fun p o n => key a b (.Modify p o n), ?_⟩
  intro p
  simp only [List.mem_map]
  constructor
  · rintro ⟨c, hc, rfl⟩
    exact ⟨c.swap, (key a b c).1 hc, swap_path c⟩
  · rintro ⟨c, hc, rfl⟩
    exact ⟨c.swap, (key b a c).1 hc, swap_path c⟩

/-! ## The root commit and the text of the lines -/

theorem get_of_mem_nodup (m : FileMap) : m.names.Nodup → ∀ p e, (p, e) ∈ m → m.get p = some e := by
  induction m with
  | nil => intro _ p e h; simp at h
  | cons x m ih =>
    obtain ⟨k, v⟩ := x
    intro hnd p e hmem
    unfold FileMap.names at hnd ih
    simp only [List.map_cons, List.nodup_cons] at hnd
    unfold FileMap.get at ih ⊢
    rcases List.mem_cons.1 hmem with h | h
    · cases h
      simp [List.lookup]
    · have hne : p ≠ k := by
        intro e2
        subst e2
        exact hnd.1 (List.mem_map.2 ⟨(p, e), h, rfl⟩)
      have hb : (p == k) = false := by simpa using hne
      simp only [List.lookup, hb]
      exact ih hnd.2 p e h

theorem mem_of_get (m : FileMap) : ∀ p e, m.get p = some e → (p, e) ∈ m := by
  induction m with
  | nil => intro p e h; simp [FileMap.get, List.lookup] at h
  | cons x m ih =>
    obtain ⟨k, v⟩ := x
    intro p e h
    unfold FileMap.get at ih h
    by_cases hk : p = k
    · subst hk
      simp only [List.lookup, beq_self_eq_true, Option.some.injEq] at h
      subst h
      exact List.mem_cons_self _ _
    · have hb : (p == k) = false := by simpa using hk
      simp only [List.lookup, hb] at h
      exact List.mem_cons_of_mem _ (ih p e h)

theorem firstVisits_of_nodup (names : List GoString) : ∀ done : List GoString,
    names.Nodup → (∀ x ∈ names, x ∉ done) → firstVisits done names = names := by
  induction names with
  | nil => intro done _ _; rfl
  | cons n names ih =>
    intro done hnd hdis
    have hn : n ∉ done := hdis n (List.mem_cons_self n names)
    have hc : done.contains n = false := by simpa using hn
    have hstep : firstVisits done (n :: names) =
        if done.contains n then firstVisits done names
        else n :: firstVisits (n :: done) names := rfl
    rw [hstep, hc]
    simp only [Bool.false_eq_true, if_false]
    rw [ih (n :: done) (List.nodup_cons.1 hnd).2]
    intro x hx hx2
    rcases List.mem_cons.1 hx2 with h | h
    · subst h
      exact (List.nodup_cons.1 hnd).1 hx
    · exact hdis x (List.mem_cons_of_mem n hx) h

theorem filterMap_map_eq_map {α β γ : Type} (f : β → Option γ) (h : α → β) (g : α → γ) :
    ∀ l : List α, (∀ x ∈ l, f (h x) = some (g x)) → (l.map h).filterMap f = l.map g := by
  intro l
  induction l with
  | nil => intro _; rfl
  | cons a l ih =>
    intro hall
    rw [List.map_cons, List.filterMap_cons_some (hall a (List.mem_cons_self a l)),
      List.map_cons, ih (fun x hx => hall x (List.mem_cons_of_mem a hx))]

/-- The changes of a root commit whose file map has each path once. -/
theorem changes_root (new : FileMap) (hnd : new.names.Nodup) :
    changes [] new = new.map fun pe => FileChange.Create pe.1 pe.2 := by
  unfold changes
  have hnames : FileMap.names ([] : FileMap) ++ new.names = new.names := rfl
  rw [hnames, firstVisits_of_nodup _ _ hnd (by simp)]
  unfold FileMap.names
  apply filterMap_map_eq_map
  intro x hx
  obtain ⟨p, e⟩ := x
  have h1 : FileMap.get [] p = none := rfl
  rw [h1, get_of_mem_nodup new hnd p e hx]
  rfl

theorem names_assign (m : FileMap) : ∀ (name : GoString) (file : File),
    (m.assign name file).names = if name ∈ m.names then m.names else m.names ++ [name] := by
  induction m with
  | nil => intro name file; simp [FileMap.assign, FileMap.names]
  | cons x m ih =>
    obtain ⟨k, v⟩ := x
    intro name file
    unfold FileMap.names at ih ⊢
    by_cases hk : k = name
    · subst hk
      simp [FileMap.assign]
    · have hk2 : ¬ name = k := fun h => hk h.symm
      simp only [FileMap.assign, hk, if_false, List.map_cons, ih, List.mem_cons, hk2, false_or]
      split <;> simp

theorem nodup_assign (m : FileMap) (name : GoString) (file : File) (h : m.names.Nodup) :
    (m.assign name file).names.Nodup := by
  rw [names_assign]
  split
  · exact h
  · rename_i hn
    rw [List.nodup_append]
    refine ⟨h, List.nodup_singleton name, ?_⟩
    intro a ha hb
    rw [List.mem_singleton] at hb
    subst hb
    exact hn ha

theorem nodup_foldl_assign (files : List File) : ∀ m : FileMap, m.names.Nodup →
    (files.foldl (fun m f => m.assign f.Name f) m).names.Nodup := by
  induction files with
  | nil => intro m h; exact h
  | cons f files ih =>
    intro m h
    rw [List.foldl_cons]
    exact ih _ (nodup_assign m f.Name f h)

/-- The map `commitToFileMap` fills from the empty map has each path once. -/
theorem nodup_commitToFileMap (commit : Commit) (m : FileMap)
    (h : commitToFileMap commit [] = .ok m) : m.names.Nodup := by
  unfold commitToFileMap at h
  cases hf : commit.Files with
  | error e => rw [hf] at h; cases h
  | ok it =>
    rw [hf] at h
    simp only [Except.ok.injEq] at h
    rw [← h]
    exact nodup_foldl_assign it.files [] List.nodup_nil

/-- C12: for a commit without parent whose file list is read into the map `new`,
`commitChangedFiles` returns the lines of the diff of the empty snapshot and `new`; this
list has one Create for every path of `new`, with the entry of the path, and nothing
else, so that its length is the number of paths of `new`. -/
theorem C12_root_commit (commit : Commit) (new : FileMap)
    (hfiles : commitToFileMap commit [] = .ok new) :
    commitChangedFiles commit none = .ok (changedFiles [] new) ∧
    changedFiles [] new = (new.map fun pe => FileChange.Create pe.1 pe.2).map FileChange.line ∧
    changes [] new = new.map (fun pe => FileChange.Create pe.1 pe.2) ∧
    (∀ c, c ∈ changes [] new ↔ ∃ p e, new.get p = some e ∧ c = FileChange.Create p e) ∧
    ((changes [] new).map FileChange.path).Nodup ∧
    (changedFiles [] new).length = new.names.length := by
  have hnd := nodup_commitToFileMap commit new hfiles
  have hroot := changes_root new hnd
  refine ⟨?_, ?_, hroot, ?_, nodup_changes_path [] new, ?_⟩
  · unfold commitChangedFiles
    simp only [hfiles]
  · rw [changedFiles_eq, hroot]
  · intro c
    rw [hroot, List.mem_map]
    constructor
    · rintro ⟨⟨p, e⟩, hmem, rfl⟩
      exact ⟨p, e, get_of_mem_nodup new hnd p e hmem, rfl⟩
    · rintro ⟨p, e, hget, rfl⟩
      exact ⟨(p, e), mem_of_get new p e hget, rfl⟩
  · rw [changedFiles_eq, hroot]
    simp [FileMap.names]

theorem C12_root_commit_witness :
    commitChangedFiles
        (Commit.mk zeroHash
          { Name := utf8 "Ann", Email := utf8 "ann@example.org",
            When := timeDate 2024 1 1 0 0 0 (by decide) }
          (.ok { files := [regularFile (utf8 "b.txt") zeroHash 3,
                           regularFile (utf8 "a.txt") zeroHash 10], err := none })
          (.error GoError.parentNotFound)) none =
      .ok (changedFiles []
        [(utf8 "b.txt", regularFile (utf8 "b.txt") zeroHash 3),
         (utf8 "a.txt", regularFile (utf8 "a.txt") zeroHash 10)]) :=
  (C12_root_commit
    (Commit.mk zeroHash
      { Name := utf8 "Ann", Email := utf8 "ann@example.org",
        When := timeDate 2024 1 1 0 0 0 (by decide) }
      (.ok { files := [regularFile (utf8 "b.txt") zeroHash 3,
                       regularFile (utf8 "a.txt") zeroHash 10], err := none })
      (.error GoError.parentNotFound))
    [(utf8 "b.txt", regularFile (utf8 "b.txt") zeroHash 3),
     (utf8 "a.txt", regularFile (utf8 "a.txt") zeroHash 10)]
    (by decide)).1

/-- C13 as stated fails in its example: the mode 0100644 of a regular file is written
with seven octal digits, so the line of the created file `c.txt` starts with
`c.txt create 0100644:`, not with `c.txt create 100644:`. -/
theorem C13_counterexample :
    changedFiles [] [(utf8 "c.txt", regularFile (utf8 "c.txt") zeroHash 0)] =
      [utf8 "c.txt create 0100644:0000000000000000000000000000000000000000"] ∧
    changedFiles [] [(utf8 "c.txt", regularFile (utf8 "c.txt") zeroHash 0)] ≠
      [utf8 "c.txt create 100644:0000000000000000000000000000000000000000"] := by
  decide

/-- C13, amended: when `comparer` meets a name for the first time it appends, for
entries in both snapshots that are not equal, the line of the path, ` change `, the old
mode, a colon, the old hash, a space, the new mode, a colon and the new hash; for an
entry only in the old snapshot the path, ` delete `, the mode, a colon and the hash; for
an entry only in the new snapshot the path, ` create `, the mode, a colon and the hash.
The mode and the hash are the texts `Mode.String()` and `Hash.String()` of the entry:
the Create of `c.txt` with the mode 0100644 of a regular file and the hash `H` is the
line `c.txt create 0100644:` followed by the text of `H`. -/
theorem C13_change_line_text (old new : FileMap) (st : DiffState) (name : GoString)
    (hfirst : st.fileDone.contains name = false) :
    (∀ o n, old.get name = some o → new.get name = some n → ¬ entriesEqual o n →
      (comparer old new st name).result = st.result ++
        [name ++ utf8 " change " ++ (modeString o.Mode ++ utf8 ":" ++ hashString o.Hash) ++
          utf8 " " ++ (modeString n.Mode ++ utf8 ":" ++ hashString n.Hash)]) ∧
    (∀ o, old.get name = some o → new.get name = none →
      (comparer old new st name).result = st.result ++
        [name ++ utf8 " delete " ++ (modeString o.Mode ++ utf8 ":" ++ hashString o.Hash)]) ∧
    (∀ n, old.get name = none → new.get name = some n →
      (comparer old new st name).result = st.result ++
        [name ++ utf8 " create " ++ (modeString n.Mode ++ utf8 ":" ++ hashString n.Hash)]) ∧
    (∀ (H : List Byte) (size : Int),
      changedFiles [] [(utf8 "c.txt", regularFile (utf8 "c.txt") H size)] =
        [utf8 "c.txt create 0100644:" ++ hashString H]) := by
  refine ⟨?_, ?_, ?_, ?_⟩
  · intro o n ho hn he
    rw [comparer_eq, hfirst, ho, hn]
    simp only [Bool.false_eq_true, if_false, classify, he, Option.toList, List.map_cons,
      List.map_nil, FileChange.line, formatFile]
  · intro o ho hn
    rw [comparer_eq, hfirst, ho, hn]
    simp only [Bool.false_eq_true, if_false, classify, Option.toList, List.map_cons,
      List.map_nil, FileChange.line, formatFile]
  · intro n ho hn
    rw [comparer_eq, hfirst, ho, hn]
    simp only [Bool.false_eq_true, if_false, classify, Option.toList, List.map_cons,
      List.map_nil, FileChange.line, formatFile]
  · intro H size
    have hm : modeString 0o100644 = utf8 "0100644" := by decide
    have hs : utf8 "c.txt create 0100644:" =
        utf8 "c.txt" ++ utf8 " create " ++ (utf8 "0100644" ++ utf8 ":") := by decide
    rw [changedFiles_eq, changes_root _ (by simp [FileMap.names])]
    simp only [List.map_cons, List.map_nil, FileChange.line, formatFile, regularFile, hm, hs,
      List.append_assoc]

theorem C13_change_line_text_witness :
    (comparer [] [(utf8 "c.txt", regularFile (utf8 "c.txt") zeroHash 0)]
        { result := [], fileDone := [] } (utf8 "c.txt")).result =
      [] ++ [utf8 "c.txt" ++ utf8 " create " ++
        (modeString (regularFile (utf8 "c.txt") zeroHash 0).Mode ++ utf8 ":" ++
          hashString (regularFile (utf8 "c.txt") zeroHash 0).Hash)] :=
  (C13_change_line_text [] [(utf8 "c.txt", regularFile (utf8 "c.txt") zeroHash 0)]
    { result := [], fileDone := [] } (utf8 "c.txt") rfl).2.2.1
      (regularFile (utf8 "c.txt") zeroHash 0) rfl (by decide)

/-! ## The order of the visits -/

theorem get_perm (m m2 : FileMap) (hp : m.Perm m2) (hnd : m.names.Nodup) (p : GoString) :
    m.get p = m2.get p := by
  have hnd2 : m2.names.Nodup := (hp.map Prod.fst).nodup_iff.1 hnd
  cases h1 : m.get p with
  | some e =>
    exact (get_of_mem_nodup m2 hnd2 p e (hp.mem_iff.1 (mem_of_get m p e h1))).symm
  | none =>
    cases h2 : m2.get p with
    | none => rfl
    | some e =>
      have := get_of_mem_nodup m hnd p e (hp.mem_iff.2 (mem_of_get m2 p e h2))
      rw [h1] at this
      cases this

theorem nodup_changes (old new : FileMap) : (changes old new).Nodup :=
  List.Nodup.of_map FileChange.path (nodup_changes_path old new)

theorem sortStrings_perm (l1 l2 : List GoString) (h : l1.Perm l2) :
    sortStrings l1 = sortStrings l2 := by
  unfold sortStrings
  apply List.eq_of_perm_of_sorted (r := fun a b => strLe a b = true)
  · exact ((List.perm_insertionSort _ l1).trans h).trans (List.perm_insertionSort _ l2).symm
  · exact List.sorted_insertionSort _ _
  · exact List.sorted_insertionSort _ _

/-- C18: for two snapshots that hold each path once, visiting the paths of the old
snapshot and of the new snapshot in any other order gives the same sorted change list;
the changes are the same up to their order, and every path has at most one change. -/
theorem C18_order_independence (old old2 new new2 : FileMap) (ho : old.Perm old2)
    (hn : new.Perm new2) (hko : old.names.Nodup) (hkn : new.names.Nodup) :
    sortedChangedFiles old new = sortedChangedFiles old2 new2 ∧
    (changes old new).Perm (changes old2 new2) ∧
    ((changes old new).map FileChange.path).Nodup ∧
    ((changes old2 new2).map FileChange.path).Nodup := by
  have hperm : (changes old new).Perm (changes old2 new2) := by
    rw [List.perm_ext_iff_of_nodup (nodup_changes old new) (nodup_changes old2 new2)]
    intro c
    rw [mem_changes, mem_changes, get_perm old old2 ho hko, get_perm new new2 hn hkn]
  refine ⟨?_, hperm, nodup_changes_path old new, nodup_changes_path old2 new2⟩
  unfold sortedChangedFiles
  rw [changedFiles_eq, changedFiles_eq]
  exact sortStrings_perm _ _ (hperm.map FileChange.line)

theorem C18_order_independence_witness :
    sortedChangedFiles
        [(utf8 "a.txt", regularFile (utf8 "a.txt") zeroHash 10),
         (utf8 "z", regularFile (utf8 "z") zeroHash 1)]
        [(utf8 "a.txt", regularFile (utf8 "a.txt") zeroHash 12),
         (utf8 "b.txt", regularFile (utf8 "b.txt") zeroHash 3)] =
      sortedChangedFiles
        [(utf8 "z", regularFile (utf8 "z") zeroHash 1),
         (utf8 "a.txt", regularFile (utf8 "a.txt") zeroHash 10)]
        [(utf8 "b.txt", regularFile (utf8 "b.txt") zeroHash 3),
         (utf8 "a.txt", regularFile (utf8 "a.txt") zeroHash 12)] :=
  (C18_order_independence _ _ _ _ (List.Perm.swap _ _ _) (List.Perm.swap _ _ _)
    (by decide) (by decide)).1

/-! ## Normalisation -/

theorem formatTime_decoded (t : Time) : formatTime t.decoded = formatTime t := rfl

theorem exportedFields_decoded (q : LogQuery) :
    exportedFields q.decoded = exportedFields q := by
  obtain ⟨au, all, ref, ft, tt⟩ := q
  cases all <;> cases ft <;> cases tt <;>
    simp [exportedFields, LogQuery.decoded, formatTime_decoded]

theorem decoded_decoded (q : LogQuery) : q.decoded.decoded = q.decoded := by
  obtain ⟨au, all, ref, ft, tt⟩ := q
  cases all <;> cases ft <;> cases tt <;> simp [LogQuery.decoded, Time.decoded, timeUnix]

theorem normalize_eq (q : LogQuery) (hau : querySeparator ∉ q.AuthorRegexp)
    (href : q.All = true ∨ querySeparator ∉ q.Ref) : NormalizeLogQuery q = .ok q.decoded := by
  obtain ⟨text, h1, h2⟩ := import_export q hau href
  unfold NormalizeLogQuery
  rw [h1]
  exact h2

/-- C20: for every query whose author pattern and reference contain no newline,
`NormalizeLogQuery` succeeds; the normalised query has the same encoding as the query,
normalising it again returns it unchanged, its reference is empty when `All` is set and
the reference of the query otherwise, and its times have whole seconds. -/
theorem C20_normalize_canonical (q : LogQuery) (hau : querySeparator ∉ q.AuthorRegexp)
    (href : querySeparator ∉ q.Ref) :
    ∃ r, NormalizeLogQuery q = .ok r ∧ ExportLogQuery r = ExportLogQuery q ∧
      NormalizeLogQuery r = .ok r ∧
      r.Ref = (if q.All = true then [] else q.Ref) ∧
      (∀ t, r.FromTime = some t → t.nsec = 0) ∧ (∀ t, r.ToTime = some t → t.nsec = 0) := by
  have hau2 : querySeparator ∉ q.decoded.AuthorRegexp := hau
  have href2 : querySeparator ∉ q.decoded.Ref := by
    unfold LogQuery.decoded
    dsimp only
    split
    · simp
    · exact href
  refine ⟨q.decoded, normalize_eq q hau (Or.inr href), ?_, ?_, rfl, ?_, ?_⟩
  · rw [export_eq, export_eq, exportedFields_decoded]
  · rw [normalize_eq q.decoded hau2 (Or.inr href2), decoded_decoded]
  · intro t ht
    unfold LogQuery.decoded at ht
    dsimp only at ht
    cases hq : q.FromTime with
    | none => rw [hq] at ht; cases ht
    | some u =>
      rw [hq] at ht
      simp only [Option.map_some', Option.some.injEq] at ht
      rw [← ht]
      rfl
  · intro t ht
    unfold LogQuery.decoded at ht
    dsimp only at ht
    cases hq : q.ToTime with
    | none => rw [hq] at ht; cases ht
    | some u =>
      rw [hq] at ht
      simp only [Option.map_some', Option.some.injEq] at ht
      rw [← ht]
      rfl

theorem C20_normalize_canonical_witness :
    ∃ r, NormalizeLogQuery
        { AuthorRegexp := utf8 "@example.com$", All := true, Ref := utf8 "main",
          FromTime := some (timeDate 2024 1 1 0 0 0 (by decide)), ToTime := none } = .ok r ∧
      ExportLogQuery r = ExportLogQuery
        { AuthorRegexp := utf8 "@example.com$", All := true, Ref := utf8 "main",
          FromTime := some (timeDate 2024 1 1 0 0 0 (by decide)), ToTime := none } ∧
      NormalizeLogQuery r = .ok r ∧
      r.Ref = (if true = true then [] else utf8 "main") ∧
      (∀ t, r.FromTime = some t → t.nsec = 0) ∧ (∀ t, r.ToTime = some t → t.nsec = 0) :=
  C20_normalize_canonical
    { AuthorRegexp := utf8 "@example.com$", All := true, Ref := utf8 "main",
      FromTime := some (timeDate 2024 1 1 0 0 0 (by decide)), ToTime := none }
    (by decide) (by decide)

/-! ## The commit block and the report -/

theorem commitReport_eq (commit : Commit) (lines : List GoString)
    (h : commitChangedFiles commit (firstParent commit) = .ok lines) :
    commitReport commit = .ok (specCommitBlock (hashString commit.Hash)
      (formatRFC3339 commit.Author.When.Truncate.UTC) commit.Author.Name commit.Author.Email
      (sortStrings lines)) := by
  have h1 : utf8 "\nDate   " = utf8 "\n" ++ utf8 "Date   " := by decide
  have h2 : utf8 "\nAuthor " = utf8 "\n" ++ utf8 "Author " := by decide
  have h3 : utf8 ">\n\n" = utf8 ">\n" ++ utf8 "\n" := by decide
  have h4 : utf8 "\n\n----\n" = utf8 "\n" ++ (utf8 "\n" ++ utf8 "----\n") := by decide
  unfold commitReport specCommitBlock stringsJoin
  simp only [h, h1, h2, h3, h4, List.append_assoc]

set_option maxRecDepth 100000 in
/-- The block of a root commit with one file. -/
theorem commitReport_example : commitReport exampleRootCommit = .ok exampleRootBlock := by
  decide

set_option maxRecDepth 100000 in
/-- The block of a commit with a parent, a hash that is not zero, nanoseconds and the
local zone. -/
theorem commitReport_example_child :
    commitReport exampleChildCommit = .ok exampleChildBlock := by
  decide

set_option maxRecDepth 100000 in
/-- The text of some seconds: a leap day, the second before 1970, the first second of
the year 10000 and of the year 0, and the last second of the year -1. -/
theorem specRFC3339_examples :
    specRFC3339 951827696 = utf8 "2000-02-29T12:34:56Z" ∧
    specRFC3339 (-1) = utf8 "1969-12-31T23:59:59Z" ∧
    specRFC3339 253402300800 = utf8 "10000-01-01T00:00:00Z" ∧
    specRFC3339 (-62167219200) = utf8 "0000-01-01T00:00:00Z" ∧
    specRFC3339 (-62167219201) = utf8 "-0001-12-31T23:59:59Z" := by
  decide

/-- From the start of the absolute count of package `time` on, `Format` prints the date
and the time of the second itself. -/
theorem formatRFC3339_eq_spec (t : Time) (h : -9223372028715321600 ≤ t.unix) :
    formatRFC3339 t = specRFC3339 t.unix := by
  have hlt := t.unix_lt
  unfold formatRFC3339 specRFC3339 Time.abs unixToAbsolute
  have hmod : (t.unix + 9223372028715321600) % 18446744073709551616 =
      t.unix + 9223372028715321600 := Int.emod_eq_of_lt (by omega) (by omega)
  rw [hmod]
  obtain ⟨k, hk⟩ : ∃ k : Nat, t.unix + 9223372028715321600 = (k : Int) :=
    ⟨(t.unix + 9223372028715321600).toNat, (Int.toNat_of_nonneg (by omega)).symm⟩
  rw [hk, Int.toNat_natCast]
  have h1 : ((k / 86400 : Nat) : Int) - 9223372028715321600 / 86400 = t.unix / 86400 := by
    omega
  have h2 : k % 86400 = (t.unix % 86400).toNat := by omega
  rw [h1, h2]

set_option maxRecDepth 100000 in
/-- C14, counterexample: the author time of the commit is `time.Unix(-1<<63, 0)`, a
second of the year -292277022657. It lies before the start of the absolute count of
package `time`, and `commitReport` prints the date 292277026596-12-04T15:30:08Z, which
is 2^64 seconds later and not the UTC time of the commit. -/
theorem C14_counterexample :
    commitReport
        (Commit.mk zeroHash
          { Name := utf8 "Ann", Email := utf8 "ann@example.org",
            When := timeUnix (-9223372036854775808) (by decide) (by decide) }
          (.ok { files := [regularFile (utf8 "c.txt") zeroHash 3], err := none })
          (.error GoError.parentNotFound)) =
      .ok (utf8 ("Commit 0000000000000000000000000000000000000000\n" ++
        "Date   292277026596-12-04T15:30:08Z\n" ++
        "Author Ann <ann@example.org>\n" ++
        "\n" ++
        "c.txt create 0100644:0000000000000000000000000000000000000000\n" ++
        "\n" ++
        "----\n")) ∧
    specRFC3339 (-9223372036854775808) = utf8 "-292277022657-01-27T08:29:52Z" ∧
    civilFromDays (-9223372036854775808 / 86400) = (-292277022657, 1, 27) := by
  decide

/-- C14, amended: for a commit whose author time is not before the second
-9223372028715321600, where the absolute count of package `time` starts, and whose
change lines are `lines` (what `commitChangedFiles` returns for the commit and its first
parent), `commitReport` returns exactly `Commit `, the hash, a newline, `Date   `, the
UTC date and time of the second of the author time in the format of RFC 3339, a
newline, `Author `, the name, ` <`, the email, `>`, a newline and an empty line, the
sorted lines joined by single newlines, a newline, an empty line and the line `----`;
when `commitChangedFiles` fails, `commitReport` returns its error; the root commit of
Ann of 2024-01-01T00:00:00Z with the one file `c.txt` and the commit of Bob of
2000-02-29T12:34:56Z on it have the blocks shown; and the text of the date is the one
shown for a leap day, for the second before 1970 and for years of five digits, of zero
and below zero. -/
theorem C14_commit_block (commit : Commit)
    (hrange : -9223372028715321600 ≤ commit.Author.When.unix) :
    (∀ lines, commitChangedFiles commit (firstParent commit) = .ok lines →
      commitReport commit = .ok (specCommitBlock (hashString commit.Hash)
        (specRFC3339 commit.Author.When.unix) commit.Author.Name commit.Author.Email
        (sortStrings lines))) ∧
    (∀ err, commitChangedFiles commit (firstParent commit) = .error err →
      commitReport commit = .error err) ∧
    (∀ hash date name email lines, specCommitBlock hash date name email lines =
      utf8 "Commit " ++ hash ++ utf8 "\nDate   " ++ date ++ utf8 "\nAuthor " ++ name ++
        utf8 " <" ++ email ++ utf8 ">\n\n" ++ stringsJoin lines ++ utf8 "\n\n----\n") ∧
    commitReport exampleRootCommit = .ok exampleRootBlock ∧
    commitReport exampleChildCommit = .ok exampleChildBlock ∧
    specRFC3339 951827696 = utf8 "2000-02-29T12:34:56Z" ∧
    specRFC3339 (-1) = utf8 "1969-12-31T23:59:59Z" ∧
    specRFC3339 253402300800 = utf8 "10000-01-01T00:00:00Z" ∧
    specRFC3339 (-62167219200) = utf8 "0000-01-01T00:00:00Z" ∧
    specRFC3339 (-62167219201) = utf8 "-0001-12-31T23:59:59Z" := by
  refine ⟨?_, ?_, fun _ _ _ _ _ => rfl, commitReport_example, commitReport_example_child,
    specRFC3339_examples⟩
  · intro lines h
    rw [commitReport_eq commit lines h]
    have hd : formatRFC3339 commit.Author.When.Truncate.UTC =
        specRFC3339 commit.Author.When.unix :=
      formatRFC3339_eq_spec commit.Author.When.Truncate.UTC hrange
    rw [hd]
  · intro err h
    unfold commitReport
    simp only [h]

set_option maxRecDepth 100000 in
theorem C14_commit_block_witness :
    -9223372028715321600 ≤ exampleRootCommit.Author.When.unix ∧
    commitReport exampleRootCommit = .ok (specCommitBlock (hashString exampleRootCommit.Hash)
      (specRFC3339 exampleRootCommit.Author.When.unix) exampleRootCommit.Author.Name
      exampleRootCommit.Author.Email
      (sortStrings
        [utf8 "c.txt create 0100644:0000000000000000000000000000000000000000"])) :=
  ⟨by decide, (C14_commit_block exampleRootCommit (by decide)).1
    [utf8 "c.txt create 0100644:0000000000000000000000000000000000000000"] (by decide)⟩

/-! ## The report of a list of commits -/

theorem loop_ok (commits : List Commit) (b : Commit → GoString) :
    ∀ sb : GoString, (∀ c ∈ commits, commitReport c = .ok (b c)) →
      commitLogReportLoop sb commits = .ok (sb ++ commits.flatMap b) := by
  induction commits with
  | nil => intro sb _; simp [commitLogReportLoop]
  | cons c commits ih =>
    intro sb h
    unfold commitLogReportLoop
    rw [h c (List.mem_cons_self c commits)]
    simp only
    rw [ih (sb ++ b c) (fun x hx => h x (List.mem_cons_of_mem c hx))]
    simp

theorem loop_append (cs1 : List Commit) : ∀ (cs2 : List Commit) (sb r : GoString),
    commitLogReportLoop sb cs1 = .ok r →
      commitLogReportLoop sb (cs1 ++ cs2) = commitLogReportLoop r cs2 := by
  induction cs1 with
  | nil =>
    intro cs2 sb r h
    simp only [commitLogReportLoop, Except.ok.injEq] at h
    rw [h]
    rfl
  | cons c cs1 ih =>
    intro cs2 sb r h
    rw [List.cons_append]
    have hstep : ∀ (sb : GoString) (l : List Commit), commitLogReportLoop sb (c :: l) =
        match commitReport c with
        | .error err => .error err
        | .ok report => commitLogReportLoop (sb ++ report) l := fun _ _ => rfl
    rw [hstep] at h ⊢
    cases hc : commitReport c with
    | error e => rw [hc] at h; cases h
    | ok rep =>
      rw [hc] at h
      simp only at h ⊢
      exact ih cs2 _ r h

theorem loop_shift (commits : List Commit) : ∀ (sb r : GoString),
    commitLogReportLoop [] commits = .ok r →
      commitLogReportLoop sb commits = .ok (sb ++ r) := by
  intro sb r h
  have hb : ∀ c ∈ commits, commitReport c =
      .ok ((fun c => match commitReport c with | .ok x => x | .error _ => []) c) := by
    intro c hc
    cases hr : commitReport c with
    | ok x => simp only [hr]
    | error e =>
      exfalso
      obtain ⟨l1, l2, rfl⟩ := List.append_of_mem hc
      have hl1 : ∀ (l1 : List Commit) (sb : GoString),
          ∃ e2, commitLogReportLoop sb (l1 ++ c :: l2) = .error e2 := by
        intro l1
        induction l1 with
        | nil =>
          intro sb
          refine ⟨e, ?_⟩
          rw [List.nil_append]
          unfold commitLogReportLoop
          rw [hr]
        | cons d l1 ih =>
          intro sb
          rw [List.cons_append]
          unfold commitLogReportLoop
          cases hd : commitReport d with
          | error e3 => exact ⟨e3, rfl⟩
          | ok x => exact ih _
      obtain ⟨e2, he2⟩ := hl1 l1 []
      rw [he2] at h
      cases h
  rw [loop_ok commits _ sb hb]
  rw [loop_ok commits _ [] hb] at h
  simp only [List.nil_append, Except.ok.injEq] at h
  rw [h]

theorem write_loop_ok (commits : List Commit) : ∀ (sb r : GoString),
    commitLogReportLoop sb commits = .ok r →
      writeCommitLogReportLoop sb commits = (r, none) := by
  induction commits with
  | nil =>
    intro sb r h
    simp only [commitLogReportLoop, Except.ok.injEq] at h
    rw [← h]
    rfl
  | cons c commits ih =>
    intro sb r h
    unfold commitLogReportLoop at h
    unfold writeCommitLogReportLoop
    cases hc : commitReport c with
    | error e => rw [hc] at h; cases h
    | ok rep =>
      rw [hc] at h
      simp only at h ⊢
      exact ih _ r h

/-- C15: when every commit of the list has a block, `CommitLogReport` returns the
blocks of the commits one after the other in the order of the list, and nothing else;
the report of the empty list is the empty string; the report of two lists joined is the
two reports joined; and when the block of a commit fails after commits that have a
block, the result is the error of that commit; and `WriteCommitLogReport` writes to an
empty file the text that `CommitLogReport` returns. -/
theorem C15_report_assembly :
    (∀ (commits : List Commit) (b : Commit → GoString),
      (∀ c ∈ commits, commitReport c = .ok (b c)) →
      CommitLogReport { Commits := commits } = .ok (commits.flatMap b)) ∧
    CommitLogReport { Commits := [] } = .ok [] ∧
    (∀ (cs1 cs2 : List Commit) (r1 r2 : GoString),
      CommitLogReport { Commits := cs1 } = .ok r1 →
      CommitLogReport { Commits := cs2 } = .ok r2 →
      CommitLogReport { Commits := cs1 ++ cs2 } = .ok (r1 ++ r2)) ∧
    (∀ (cs1 cs2 : List Commit) (c : Commit) (e : GoError) (b : Commit → GoString),
      (∀ x ∈ cs1, commitReport x = .ok (b x)) → commitReport c = .error e →
      CommitLogReport { Commits := cs1 ++ c :: cs2 } = .error e) ∧
    (∀ (commits : List Commit) (r : GoString),
      CommitLogReport { Commits := commits } = .ok r →
      WriteCommitLogReport { Commits := commits } = (r, none)) := by
  refine ⟨?_, rfl, ?_, ?_, fun commits r h => write_loop_ok commits [] r h⟩
  · intro commits b h
    unfold CommitLogReport
    rw [loop_ok commits b [] h]
    simp
  · intro cs1 cs2 r1 r2 h1 h2
    unfold CommitLogReport at h1 h2 ⊢
    rw [loop_append cs1 cs2 [] r1 h1]
    exact loop_shift cs2 r1 r2 h2
  · intro cs1 cs2 c e b h hc
    unfold CommitLogReport
    rw [loop_append cs1 (c :: cs2) [] _ (loop_ok cs1 b [] h)]
    unfold commitLogReportLoop
    rw [hc]

set_option maxRecDepth 100000 in
theorem C15_report_assembly_witness :
    CommitLogReport { Commits := [exampleRootCommit] ++ [exampleRootCommit] } =
      .ok (exampleRootBlock ++ exampleRootBlock) :=
  C15_report_assembly.2.2.1 [exampleRootCommit] [exampleRootCommit] exampleRootBlock
    exampleRootBlock (by decide) (by decide)

/-! ## Errors of the snapshot of a commit -/

/-- The error that stops the walk of `fileIter.ForEach` does not reach the caller of
`commitToFileMap`: the function returns nil with the files seen before the error. -/
theorem commitToFileMap_drops_walk_error (hash : List Byte) (author : Signature)
    (files : List File) (e : GoError) (parent0 : Except GoError Commit) (fileMap : FileMap) :
    commitToFileMap (Commit.mk hash author (.ok { files := files, err := some e }) parent0)
        fileMap =
      commitToFileMap (Commit.mk hash author (.ok { files := files, err := none }) parent0)
        fileMap := rfl

theorem commitToFileMap_error (commit : Commit) (e : GoError) (fileMap : FileMap)
    (h : commit.Files = .error e) : commitToFileMap commit fileMap = .error e := by
  unfold commitToFileMap
  rw [h]

theorem commitToFileMap_ok (commit : Commit) (it : FileIter) (fileMap : FileMap)
    (h : commit.Files = .ok it) : ∃ m, commitToFileMap commit fileMap = .ok m := by
  unfold commitToFileMap
  rw [h]
  exact ⟨_, rfl⟩

theorem commitChangedFiles_parent_error (commit p : Commit) (e : GoError)
    (h : p.Files = .error e) : commitChangedFiles commit (some p) = .error e := by
  unfold commitChangedFiles
  simp only [commitToFileMap_error p e [] h]

theorem commitChangedFiles_commit_error (commit : Commit) (parent : Option Commit)
    (e : GoError) (hp : ∀ p, parent = some p → ∃ it, p.Files = .ok it)
    (h : commit.Files = .error e) : commitChangedFiles commit parent = .error e := by
  unfold commitChangedFiles
  cases parent with
  | none => simp only [commitToFileMap_error commit e [] h]
  | some p =>
    obtain ⟨it, hit⟩ := hp p rfl
    obtain ⟨m, hm⟩ := commitToFileMap_ok p it [] hit
    simp only [hm, commitToFileMap_error commit e [] h]

theorem commitReport_error (commit : Commit) (e : GoError)
    (h : commitChangedFiles commit (firstParent commit) = .error e) :
    commitReport commit = .error e := by
  unfold commitReport
  simp only [h]

set_option maxRecDepth 100000 in
/-- C16, counterexample: the first parent of the commit exists and cannot be read
(`commit.Parent(0)` returns `plumbing.ErrObjectNotFound`, not the absence of a parent):
`commitReport` returns no error, it returns the report of a root commit, with every file
of the commit shown as created. -/
theorem C16_counterexample :
    commitReport
        (Commit.mk zeroHash
          { Name := utf8 "Ann", Email := utf8 "ann@example.org",
            When := timeDate 2024 1 1 0 0 0 (by decide) }
          (.ok { files := [regularFile (utf8 "c.txt") zeroHash 3], err := none })
          (.error GoError.objectNotFound)) =
      .ok (utf8 ("Commit 0000000000000000000000000000000000000000\n" ++
        "Date   2024-01-01T00:00:00Z\n" ++
        "Author Ann <ann@example.org>\n" ++
        "\n" ++
        "c.txt create 0100644:0000000000000000000000000000000000000000\n" ++
        "\n" ++
        "----\n")) := by
  decide

/-- C16, amended: when `commit.Files()` fails for the parent handed to
`commitChangedFiles`, or for the commit while the parent, if there is one, has a file
list, `commitChangedFiles` returns that error; `commitReport` returns that error when
`commit.Files()` fails for the first parent it could read or for the commit; and every
error of `commit.Parent(0)`, the absence of a parent and any other, gives the empty old
snapshot: the report is the one of the same commit without a parent. -/
theorem C16_error_propagation (commit : Commit) :
    (∀ p e, p.Files = .error e → commitChangedFiles commit (some p) = .error e) ∧
    (∀ parent e, (∀ p, parent = some p → ∃ it, p.Files = .ok it) →
      commit.Files = .error e → commitChangedFiles commit parent = .error e) ∧
    (∀ p e, commit.Parent0 = .ok p → p.Files = .error e →
      commitReport commit = .error e) ∧
    (∀ e, (∀ p, commit.Parent0 = .ok p → ∃ it, p.Files = .ok it) →
      commit.Files = .error e → commitReport commit = .error e) ∧
    (∀ e, commit.Parent0 = .error e →
      firstParent commit = none ∧
      (∀ new, commitToFileMap commit [] = .ok new →
        commitChangedFiles commit (firstParent commit) = .ok (changedFiles [] new)) ∧
      commitReport commit = commitReport
        (Commit.mk commit.Hash commit.Author commit.Files (.error GoError.parentNotFound))) := by
  refine ⟨fun p e h => commitChangedFiles_parent_error commit p e h,
    fun parent e hp h => commitChangedFiles_commit_error commit parent e hp h, ?_, ?_, ?_⟩
  · intro p e hp h
    apply commitReport_error
    have : firstParent commit = some p := by
      unfold firstParent
      rw [hp]
    rw [this]
    exact commitChangedFiles_parent_error commit p e h
  · intro e hp h
    apply commitReport_error
    apply commitChangedFiles_commit_error commit _ e _ h
    intro p hfp
    apply hp p
    unfold firstParent at hfp
    cases hpar : commit.Parent0 with
    | error e2 => rw [hpar] at hfp; cases hfp
    | ok q =>
      rw [hpar] at hfp
      simp only [Option.some.injEq] at hfp
      rw [hfp]
  · intro e he
    have hnone : firstParent commit = none := by
      unfold firstParent
      rw [he]
    refine ⟨hnone, ?_, ?_⟩
    · intro new hnew
      rw [hnone]
      unfold commitChangedFiles
      simp only [hnew]
    · cases commit with
      | mk hash author files parent0 =>
        simp only [Commit.Parent0] at he
        subst he
        rfl

theorem C16_error_propagation_witness :
    commitReport exampleBrokenParentCommit = .error GoError.objectNotFound :=
  (C16_error_propagation exampleBrokenParentCommit).2.2.1 _ GoError.objectNotFound rfl rfl

/-! ## The token in the name of a report -/

theorem groupOfWidth_one (token : GoString) (hne : token ≠ [])
    (hall : ∀ c ∈ token, isTokenChar c = true) :
    groupOfWidth (token ++ utf8 ".txt") 1 = some token := by
  have hdot : utf8 ".txt" = [46, 116, 120, 116] := by decide
  have htxt : utf8 "txt" = [116, 120, 116] := by decide
  have hlen : 0 < token.length := List.length_pos.mpr hne
  have hl : (token ++ ([46, 116, 120, 116] : GoString)).length - (1 + 3) = token.length := by
    simp
  have hl3 : (token ++ ([46, 116, 120, 116] : GoString)).length - 3 = token.length + 1 := by
    simp
  have hall2 : token.all isTokenChar = true := List.all_eq_true.mpr hall
  unfold groupOfWidth
  rw [hdot, htxt]
  simp only [hl, hl3, List.take_left, List.drop_left]
  have hd : List.drop (token.length + 1) (token ++ ([46, 116, 120, 116] : GoString)) =
      [116, 120, 116] := by
    rw [← List.drop_drop, List.drop_left]
    rfl
  have h5 : decide (1 + 4 ≤ (token ++ ([46, 116, 120, 116] : GoString)).length) = true := by
    simp
    omega
  rw [hd, h5, hall2]
  rfl

theorem matchFromLQ_separator (token : GoString) (hne : token ≠ [])
    (hall : ∀ c ∈ token, isTokenChar c = true) :
    matchFromLQ (utf8 "-LQ" ++ token ++ utf8 ".txt") = some token := by
  have hsep : utf8 "-LQ" = [45, 76, 81] := by decide
  unfold matchFromLQ
  have hp : (utf8 "-LQ").isPrefixOf (utf8 "-LQ" ++ token ++ utf8 ".txt") = true := by
    rw [List.isPrefixOf_iff_prefix, List.append_assoc]
    exact List.prefix_append _ _
  rw [hp]
  have hdrop : List.drop 3 (utf8 "-LQ" ++ token ++ utf8 ".txt") = token ++ utf8 ".txt" := by
    rw [hsep]
    rfl
  simp only [if_true, hdrop, groupOfWidth_one token hne hall]

theorem matchFromLQ_inside (c : Byte) (r t : GoString)
    (h : ¬ (utf8 "-LQ") <:+: (c :: r)) :
    matchFromLQ (c :: r ++ (utf8 "-LQ" ++ t)) = none := by
  have hsep : utf8 "-LQ" = [45, 76, 81] := by decide
  unfold matchFromLQ
  have hp : (utf8 "-LQ").isPrefixOf (c :: r ++ (utf8 "-LQ" ++ t)) = false := by
    rw [Bool.eq_false_iff]
    intro hpre
    rw [List.isPrefixOf_iff_prefix] at hpre
    apply h
    rw [hsep] at hpre ⊢
    match r, hpre with
    | [], hpre =>
      simp only [List.cons_append, List.nil_append, List.cons_prefix_cons] at hpre
      exact absurd hpre.2.1 (by decide)
    | [a], hpre =>
      simp only [List.cons_append, List.nil_append, List.cons_prefix_cons] at hpre
      exact absurd hpre.2.2.1 (by decide)
    | a :: b :: r2, hpre =>
      simp only [List.cons_append, List.cons_prefix_cons] at hpre
      obtain ⟨h1, h2, h3, _⟩ := hpre
      subst h1 h2 h3
      exact ⟨[], r2, rfl⟩
  rw [hp]
  rfl

theorem filenameSubmatch_reportFileName (token : GoString) (hne : token ≠ [])
    (hall : ∀ c ∈ token, isTokenChar c = true) :
    ∀ repoName : GoString, (∀ c ∈ repoName, c.val ≠ 10) → ¬ (utf8 "-LQ") <:+: repoName →
      filenameSubmatch (repoName ++ (utf8 "-LQ" ++ (token ++ utf8 ".txt"))) = some token := by
  have hsep : utf8 "-LQ" = [45, 76, 81] := by decide
  intro repoName
  induction repoName with
  | nil =>
    intro _ _
    have hm := matchFromLQ_separator token hne hall
    rw [List.append_assoc, hsep] at hm
    rw [hsep, List.nil_append]
    show filenameSubmatch (45 :: ([76, 81] ++ (token ++ utf8 ".txt"))) = some token
    unfold filenameSubmatch
    have hm2 : matchFromLQ (45 :: ([76, 81] ++ (token ++ utf8 ".txt"))) = some token := hm
    rw [hm2]
  | cons c r ih =>
    intro hnl hlq
    have hm := matchFromLQ_inside c r (token ++ utf8 ".txt") hlq
    rw [List.cons_append] at hm ⊢
    unfold filenameSubmatch
    rw [hm]
    have hc : ¬ c.val = 10 := hnl c (List.mem_cons_self c r)
    simp only [hc, if_false]
    apply ih (fun x hx => hnl x (List.mem_cons_of_mem c hx))
    intro hin
    apply hlq
    obtain ⟨s, t, hst⟩ := hin
    exact ⟨c :: s, t, by rw [← hst]; simp⟩

theorem takeWhile_append_stop (p : Byte → Bool) (l r : GoString) (a : Byte)
    (hl : ∀ c ∈ l, p c = true) (ha : p a = false) :
    (l ++ a :: r).takeWhile p = l := by
  induction l with
  | nil => simp [List.takeWhile, ha]
  | cons c l ih =>
    rw [List.cons_append, List.takeWhile_cons, hl c (List.mem_cons_self c l)]
    simp only [if_true]
    rw [ih (fun x hx => hl x (List.mem_cons_of_mem c hx))]

theorem filepathBase_join (dir name : GoString) (hne : name ≠ [])
    (hns : ∀ c ∈ name, c.val ≠ 47) :
    filepathBase (dir ++ utf8 "/" ++ name) = name := by
  have hslash : utf8 "/" = [47] := by decide
  obtain ⟨l, a, hla⟩ : ∃ l a, name.reverse = a :: l := by
    cases hr : name.reverse with
    | nil => exact absurd (List.reverse_eq_nil_iff.mp hr) hne
    | cons a l => exact ⟨l, a, rfl⟩
  have ha : a.val ≠ 47 := hns a (by
    rw [← List.mem_reverse, hla]
    exact List.mem_cons_self a l)
  have hrev : (dir ++ utf8 "/" ++ name).reverse = a :: (l ++ 47 :: dir.reverse) := by
    rw [hslash]
    simp [hla]
  have hnil : dir ++ utf8 "/" ++ name ≠ [] := by
    intro h
    rw [h] at hrev
    cases hrev
  unfold filepathBase
  rw [if_neg hnil]
  simp only [hrev, List.reverse_reverse]
  have hdw : List.dropWhile (fun c : Byte => decide (c.val = 47)) (a :: (l ++ 47 :: dir.reverse)) =
      a :: (l ++ 47 :: dir.reverse) := by
    rw [List.dropWhile_cons]
    simp [ha]
  rw [hdw]
  have htw : List.takeWhile (fun c : Byte => decide (c.val ≠ 47)) (a :: (l ++ 47 :: dir.reverse)) =
      a :: l := by
    rw [← List.cons_append]
    apply takeWhile_append_stop
    · intro c hc
      have : c ∈ name := by
        rw [← List.mem_reverse, hla]
        exact hc
      simpa using hns c this
    · exact decide_eq_false (fun h => h rfl)
  rw [htw, ← hla, List.reverse_reverse, if_neg hne]

theorem filepathBase_name (name : GoString) (hne : name ≠ [])
    (hns : ∀ c ∈ name, c.val ≠ 47) : filepathBase name = name := by
  obtain ⟨l, a, hla⟩ : ∃ l a, name.reverse = a :: l := by
    cases hr : name.reverse with
    | nil => exact absurd (List.reverse_eq_nil_iff.mp hr) hne
    | cons a l => exact ⟨l, a, rfl⟩
  have ha : a.val ≠ 47 := hns a (by
    rw [← List.mem_reverse, hla]
    exact List.mem_cons_self a l)
  unfold filepathBase
  rw [if_neg hne]
  simp only [hla, List.reverse_reverse]
  have hdw : List.dropWhile (fun c : Byte => decide (c.val = 47)) (a :: l) = a :: l := by
    rw [List.dropWhile_cons]
    simp [ha]
  rw [hdw]
  have htw : List.takeWhile (fun c : Byte => decide (c.val ≠ 47)) (a :: l) = a :: l := by
    rw [List.takeWhile_eq_self_iff]
    intro c hc
    have : c ∈ name := by
      rw [← List.mem_reverse, hla]
      exact hc
    simpa using hns c this
  rw [htw, ← hla, List.reverse_reverse, if_neg hne]

set_option maxRecDepth 100000 in
theorem reportFileName_no_slash (repoName token : GoString)
    (hr : ∀ c ∈ repoName, c.val ≠ 47) (ht : ∀ c ∈ token, isTokenChar c = true) :
    ∀ c ∈ reportFileName repoName token, c.val ≠ 47 := by
  have hsep : ∀ c ∈ utf8 "-LQ", c.val ≠ 47 := by decide
  have hdot : ∀ c ∈ utf8 ".txt", c.val ≠ 47 := by decide
  intro c hc
  unfold reportFileName at hc
  simp only [List.mem_append] at hc
  rcases hc with ((h | h) | h) | h
  · exact hr c h
  · exact hsep c h
  · exact (isTokenChar_props c (ht c h)).2.1
  · exact hdot c h

theorem reportFileName_ne_nil (repoName token : GoString) :
    reportFileName repoName token ≠ [] := by
  have hdot : utf8 ".txt" = [46, 116, 120, 116] := by decide
  unfold reportFileName
  rw [hdot]
  simp

set_option maxRecDepth 100000 in
/-- C17, counterexample: for the repository name `a-LQb` and the query with `All` set,
whose token is `UTEKQUw`, the file name is `a-LQb-LQUTEKQUw.txt`; the pattern stops at
the first `-LQ` and its group is `b-LQUTEKQUw`, which is not the token, and importing it
fails while importing the token gives the query. -/
theorem C17_counterexample :
    ExportLogQueryFilename { LogQuery.zero with All := true } = .ok (utf8 "UTEKQUw") ∧
    reportFileName (utf8 "a-LQb") (utf8 "UTEKQUw") = utf8 "a-LQb-LQUTEKQUw.txt" ∧
    filenameSubmatch (reportFileName (utf8 "a-LQb") (utf8 "UTEKQUw")) =
      some (utf8 "b-LQUTEKQUw") ∧
    ImportLogQueryFilename
        (queryStringOf (filepathBase (reportFileName (utf8 "a-LQb") (utf8 "UTEKQUw")))) =
      .error GoError.invalidLogQuery ∧
    ImportLogQueryFilename (utf8 "UTEKQUw") = .ok { LogQuery.zero with All := true } := by
  decide

/-- C17, amended: for every query and every repository name that contains no newline and
nowhere the text `-LQ`, the first group of the pattern of `main` on the file name
`<repositoryName>-LQ<token>.txt`, where the token is what `ExportLogQueryFilename`
returns for the query, is the token, so `main` imports the token itself; when the
repository name has no slash, `filepath.Base` returns the file name for the file name
alone and for the file name after a directory and a slash. -/
theorem C17_token_recovery (repoName : GoString) (q : LogQuery)
    (hnl : ∀ c ∈ repoName, c.val ≠ 10) (hlq : ¬ (utf8 "-LQ") <:+: repoName) :
    ∃ token, ExportLogQueryFilename q = .ok token ∧
      filenameSubmatch (reportFileName repoName token) = some token ∧
      queryStringOf (reportFileName repoName token) = token ∧
      ImportLogQueryFilename (queryStringOf (reportFileName repoName token)) =
        ImportLogQueryFilename token ∧
      ((∀ c ∈ repoName, c.val ≠ 47) →
        filepathBase (reportFileName repoName token) = reportFileName repoName token ∧
        ∀ dir, filepathBase (dir ++ utf8 "/" ++ reportFileName repoName token) =
          reportFileName repoName token) := by
  have hne := base64Encode_ne_nil _ (stringsJoin_cons_ne_nil (exportedFields q))
  have hall := isTokenChar_base64Encode (stringsJoin (version1String :: exportedFields q))
  have hsub := filenameSubmatch_reportFileName _ hne hall repoName hnl hlq
  have hname : ∀ token, reportFileName repoName token =
      repoName ++ (utf8 "-LQ" ++ (token ++ utf8 ".txt")) := by
    intro token
    unfold reportFileName
    simp only [List.append_assoc]
  rw [← hname] at hsub
  have hq : queryStringOf (reportFileName repoName
      (base64Encode (stringsJoin (version1String :: exportedFields q)))) =
      base64Encode (stringsJoin (version1String :: exportedFields q)) := by
    unfold queryStringOf
    rw [hsub]
  refine ⟨base64Encode (stringsJoin (version1String :: exportedFields q)), ?_, hsub, hq, ?_, ?_⟩
  · unfold ExportLogQueryFilename
    rw [export_eq q]
  · rw [hq]
  · intro hslash
    have h47 := reportFileName_no_slash repoName _ hslash hall
    exact ⟨filepathBase_name _ (reportFileName_ne_nil _ _) h47,
      fun dir => filepathBase_join dir _ (reportFileName_ne_nil _ _) h47⟩

set_option maxRecDepth 100000 in
theorem C17_token_recovery_witness :
    (∀ c ∈ utf8 "repo", c.val ≠ 10) ∧ (¬ (utf8 "-LQ") <:+: utf8 "repo") ∧
    ∃ token, ExportLogQueryFilename LogQuery.zero = .ok token ∧
      filenameSubmatch (reportFileName (utf8 "repo") token) = some token ∧
      queryStringOf (reportFileName (utf8 "repo") token) = token ∧
      ImportLogQueryFilename (queryStringOf (reportFileName (utf8 "repo") token)) =
        ImportLogQueryFilename token ∧
      ((∀ c ∈ utf8 "repo", c.val ≠ 47) →
        filepathBase (reportFileName (utf8 "repo") token) =
          reportFileName (utf8 "repo") token ∧
        ∀ dir, filepathBase (dir ++ utf8 "/" ++ reportFileName (utf8 "repo") token) =
          reportFileName (utf8 "repo") token) :=
  ⟨by decide, by decide,
    C17_token_recovery (utf8 "repo") LogQuery.zero (by decide) (by decide)⟩

/-! ## The filter of `QueryCommitLog` -/

/-- Up to `maxPlainUnix` the field `ext` is the second count plus `unixToInternal`. -/
theorem sec_plain (t : Time) (h : t.unix ≤ maxPlainUnix) :
    t.sec = t.unix + 62135596800 := by
  have hge := t.unix_ge
  unfold maxPlainUnix at h
  unfold Time.sec unixToInternal
  rw [Int.emod_eq_of_lt (by omega) (by omega)]
  omega

theorem before_eq (t f : Time) (ht : t.unix ≤ maxPlainUnix) (hf : f.unix ≤ maxPlainUnix) :
    t.Before f = !decide (notLater f t) := by
  unfold Time.Before notLater
  rw [sec_plain t ht, sec_plain f hf]
  by_cases h1 : t.unix < f.unix
  · have h2 : ¬ f.unix < t.unix := by omega
    have h3 : ¬ f.unix = t.unix := by omega
    simp [h1, h2, h3]
  · by_cases h2 : t.unix = f.unix
    · by_cases h4 : t.nsec < f.nsec
      · have h5 : ¬ f.nsec ≤ t.nsec := by omega
        simp [h2, h4, h5]
      · have h5 : f.nsec ≤ t.nsec := by omega
        simp [h2, h4, h5]
    · have h3 : f.unix < t.unix := by omega
      have h4 : ¬ f.unix = t.unix := by omega
      simp [h1, h2, h3, h4]

theorem after_eq (t u : Time) (ht : t.unix ≤ maxPlainUnix) (hu : u.unix ≤ maxPlainUnix) :
    t.After u = !decide (notLater t u) := by
  unfold Time.After notLater
  rw [sec_plain t ht, sec_plain u hu]
  by_cases h1 : u.unix < t.unix
  · have h2 : ¬ t.unix < u.unix := by omega
    have h3 : ¬ t.unix = u.unix := by omega
    simp [h1, h2, h3]
  · by_cases h2 : t.unix = u.unix
    · by_cases h4 : u.nsec < t.nsec
      · have h5 : ¬ t.nsec ≤ u.nsec := by omega
        simp [h2, h4, h5]
      · have h5 : t.nsec ≤ u.nsec := by omega
        simp [h2, h4, h5]
    · have h3 : t.unix < u.unix := by omega
      simp [h1, h2, h3]

theorem queryCallback_eq (query : LogQuery) (authorRegexp : Option (GoString → Bool))
    (result : List Commit) (c : Commit)
    (hf : ∀ f, query.FromTime = some f → f.unix ≤ maxPlainUnix)
    (hu : ∀ u, query.ToTime = some u → u.unix ≤ maxPlainUnix)
    (hc : c.Author.When.unix ≤ maxPlainUnix) :
    queryCallback query authorRegexp result c =
      if specKeeps query authorRegexp c = true then result ++ [c] else result := by
  unfold queryCallback specKeeps
  cases hq1 : query.FromTime with
  | none =>
    cases hq2 : query.ToTime with
    | none => cases authorRegexp <;> simp <;> (repeat' split) <;> simp_all
    | some u =>
      have h2 := after_eq c.Author.When u hc (hu u hq2)
      cases authorRegexp <;> simp only [h2] <;> simp <;> (repeat' split) <;> simp_all
  | some f =>
    have h1 := before_eq c.Author.When f hc (hf f hq1)
    cases hq2 : query.ToTime with
    | none => cases authorRegexp <;> simp only [h1] <;> simp <;> (repeat' split) <;> simp_all
    | some u =>
      have h2 := after_eq c.Author.When u hc (hu u hq2)
      cases authorRegexp <;> simp only [h1, h2] <;> simp <;> (repeat' split) <;> simp_all

theorem foldl_queryCallback (query : LogQuery) (authorRegexp : Option (GoString → Bool))
    (hf : ∀ f, query.FromTime = some f → f.unix ≤ maxPlainUnix)
    (hu : ∀ u, query.ToTime = some u → u.unix ≤ maxPlainUnix)
    (supplied : List Commit) :
    (∀ c ∈ supplied, c.Author.When.unix ≤ maxPlainUnix) → ∀ result : List Commit,
    supplied.foldl (queryCallback query authorRegexp) result =
      result ++ supplied.filter (specKeeps query authorRegexp) := by
  induction supplied with
  | nil => intro _ result; simp
  | cons c supplied ih =>
    intro hs result
    rw [List.foldl_cons, ih (fun x hx => hs x (List.mem_cons_of_mem c hx)),
      queryCallback_eq query authorRegexp result c hf hu (hs c (List.mem_cons_self c supplied)),
      List.filter_cons]
    by_cases h : specKeeps query authorRegexp c = true
    · simp [h]
    · simp [h]

/-- Beyond `maxPlainUnix` the comparison is not the order of instants: the from-time
`time.Unix(1<<63 - 1, 0)`, what the field `FT0x7fffffffffffffff` decodes to, is later
than every commit, and the filter keeps the commit of 2024. -/
theorem queryCommits_wrapped_from_time :
    (queryCommits
      { LogQuery.zero with
        FromTime := some (timeUnix 9223372036854775807 (by decide) (by decide)) } none
      [exampleRootCommit]).length = 1 := by
  decide

/-- C19, counterexample: the to-time of the query is 2024-01-01T00:00:00Z and the author
time of the commit is that same instant; the commit is not before the to-time, and the
filter keeps it. -/
theorem C19_counterexample :
    queryCommits
        { LogQuery.zero with ToTime := some (timeDate 2024 1 1 0 0 0 (by decide)) } none
        [Commit.mk zeroHash
          { Name := utf8 "Ann", Email := utf8 "ann@example.org",
            When := timeDate 2024 1 1 0 0 0 (by decide) }
          (.ok { files := [], err := none }) (.error GoError.parentNotFound)] =
      [Commit.mk zeroHash
          { Name := utf8 "Ann", Email := utf8 "ann@example.org",
            When := timeDate 2024 1 1 0 0 0 (by decide) }
          (.ok { files := [], err := none }) (.error GoError.parentNotFound)] ∧
    ¬ specInWindow
        { LogQuery.zero with ToTime := some (timeDate 2024 1 1 0 0 0 (by decide)) }
        (timeDate 2024 1 1 0 0 0 (by decide)) := by
  refine ⟨by rfl, ?_⟩
  intro h
  exact h.2 (timeDate 2024 1 1 0 0 0 (by decide)) rfl (Or.inr ⟨rfl, le_refl _⟩)

/-- C19, amended: for a from-time, a to-time and author times up to the second
9223371974719179007, the last one before the second counter of `time.Time` wraps
around, the window of the filter is closed at both ends. The commits `QueryCommitLog`
keeps are, in the order in which the iterator supplied them, the commits whose author
time is at or after the from-time if it is set and at or before the to-time if it is
set, and whose email the author pattern, if there is one, matches; a commit whose time
is exactly the from-time or exactly the to-time is kept. -/
theorem C19_time_window (query : LogQuery) (authorRegexp : Option (GoString → Bool))
    (supplied : List Commit)
    (hf : ∀ f, query.FromTime = some f → f.unix ≤ 9223371974719179007)
    (hu : ∀ u, query.ToTime = some u → u.unix ≤ 9223371974719179007)
    (hs : ∀ c ∈ supplied, c.Author.When.unix ≤ 9223371974719179007) :
    queryCommits query authorRegexp supplied =
      supplied.filter (specKeeps query authorRegexp) ∧
    (queryCommits query authorRegexp supplied).Sublist supplied ∧
    (∀ c, c ∈ queryCommits query authorRegexp supplied ↔
      c ∈ supplied ∧
      (∀ f, query.FromTime = some f → notLater f c.Author.When) ∧
      (∀ u, query.ToTime = some u → notLater c.Author.When u) ∧
      (∀ re, authorRegexp = some re → re c.Author.Email = true)) ∧
    (∀ t u : Time, notLater t u ↔
      t.unix < u.unix ∨ (t.unix = u.unix ∧ t.nsec ≤ u.nsec)) ∧
    (∀ t : Time, notLater t t) ∧
    (∀ c : Commit, c.Author.When.unix ≤ 9223371974719179007 →
      (query.FromTime = some c.Author.When ∨ query.FromTime = none) →
      (query.ToTime = some c.Author.When ∨ query.ToTime = none) →
      queryCommits query none [c] = [c]) := by
  have heq : ∀ (re : Option (GoString → Bool)) (l : List Commit),
      (∀ c ∈ l, c.Author.When.unix ≤ maxPlainUnix) →
      queryCommits query re l = l.filter (specKeeps query re) := by
    intro re l hl
    unfold queryCommits
    rw [foldl_queryCallback query re hf hu l hl]
    simp
  have hrefl : ∀ t : Time, notLater t t := fun t => Or.inr ⟨rfl, le_refl _⟩
  have hkeeps : ∀ (re : Option (GoString → Bool)) (c : Commit), specKeeps query re c = true ↔
      (∀ f, query.FromTime = some f → notLater f c.Author.When) ∧
      (∀ u, query.ToTime = some u → notLater c.Author.When u) ∧
      (∀ r, re = some r → r c.Author.Email = true) := by
    intro re c
    unfold specKeeps
    cases query.FromTime <;> cases query.ToTime <;> cases re <;> simp [and_assoc]
  refine ⟨heq authorRegexp supplied hs, ?_, ?_, fun _ _ => Iff.rfl, hrefl, ?_⟩
  · rw [heq authorRegexp supplied hs]
    exact List.filter_sublist _
  · intro c
    rw [heq authorRegexp supplied hs, List.mem_filter, hkeeps]
  · intro c hc hfc huc
    have hk : specKeeps query none c = true := by
      rw [hkeeps]
      refine ⟨?_, ?_, ?_⟩
      · intro f hf2
        rcases hfc with h | h
        · rw [h] at hf2
          cases hf2
          exact hrefl _
        · rw [h] at hf2
          cases hf2
      · intro u hu2
        rcases huc with h | h
        · rw [h] at hu2
          cases hu2
          exact hrefl _
        · rw [h] at hu2
          cases hu2
      · intro r hr
        cases hr
    rw [heq none [c] (by
      intro x hx
      rw [List.mem_singleton] at hx
      rw [hx]
      exact hc)]
    simp [hk]

theorem C19_time_window_witness :
    queryCommits
        { LogQuery.zero with ToTime := some exampleRootCommit.Author.When } none
        [exampleRootCommit] = [exampleRootCommit] :=
  (C19_time_window { LogQuery.zero with ToTime := some exampleRootCommit.Author.When } none
    [exampleRootCommit] (by intro f hf; cases hf)
    (by
      intro u hu
      cases hu
      decide)
    (by
      intro c hc
      rw [List.mem_singleton] at hc
      rw [hc]
      decide)).2.2.2.2.2 exampleRootCommit (by decide) (Or.inr rfl) (Or.inl rfl)

end Gitreport
